import Mathlib

/-!
Verification of the URL canonicalization and crawl engine of `web_scan`
(`src/recon/url_canonicalize.py`, `src/recon/html_link_discovery.py`).

The Python code is shallowly embedded over `List Char` / `String`.  The
behaviour of the CPython 3.11 standard-library functions the source calls
(`urllib.parse.urlsplit`, `urljoin`, `quote`, `unquote`, `parse_qsl`,
`urlencode`, `posixpath.normpath`, `str.strip`, …) is embedded from the
CPython 3.11 sources, since the repository's semantics depends on them.
Unicode-dependent details (`str.lower`, `\d`, whitespace) are modelled on
their ASCII behaviour.
-/

namespace Py

/-- Characters stripped by Python's `str.strip()` (ASCII whitespace;
`str.strip` also strips a handful of rare Unicode space characters, which we
model for the common ones). -/
def isStripWS (c : Char) : Bool :=
  c = ' ' ∨ (9 ≤ c.toNat ∧ c.toNat ≤ 13) ∨ (28 ≤ c.toNat ∧ c.toNat ≤ 31) ∨
  c.toNat = 133 ∨ c.toNat = 160 ∨ (8192 ≤ c.toNat ∧ c.toNat ≤ 8202) ∨
  c.toNat = 8232 ∨ c.toNat = 8233 ∨ c.toNat = 8239 ∨ c.toNat = 8287 ∨
  c.toNat = 12288 ∨ c.toNat = 5760

/-- `s.strip()` on `List Char`. -/
def strip (s : List Char) : List Char :=
  ((s.dropWhile isStripWS).reverse.dropWhile isStripWS).reverse

/-- `s.rstrip(cs)` for an explicit character set. -/
def rstripSet (cs : List Char) (s : List Char) : List Char :=
  (s.reverse.dropWhile (fun c => cs.contains c)).reverse

/-- `s.lstrip(cs)` for an explicit character set. -/
def lstripSet (cs : List Char) (s : List Char) : List Char :=
  s.dropWhile (fun c => cs.contains c)

/-- Python `str.lower()`, modelled on ASCII letters. -/
def lowerChar (c : Char) : Char :=
  if 'A' ≤ c ∧ c ≤ 'Z' then Char.ofNat (c.toNat + 32) else c

def lower (s : List Char) : List Char := s.map lowerChar

/-- ASCII decimal digit (Python's `\d` and `str.isdigit` restricted to ASCII;
the source's regexes are applied to URL text where only ASCII digits occur). -/
def isDigitChar (c : Char) : Bool := '0' ≤ c ∧ c ≤ '9'

def isAsciiAlpha (c : Char) : Bool := ('a' ≤ c ∧ c ≤ 'z') ∨ ('A' ≤ c ∧ c ≤ 'Z')

def isHexDigitChar (c : Char) : Bool :=
  isDigitChar c ∨ ('a' ≤ c ∧ c ≤ 'f') ∨ ('A' ≤ c ∧ c ≤ 'F')

def hexVal (c : Char) : Nat :=
  if isDigitChar c then c.toNat - '0'.toNat
  else if 'a' ≤ c ∧ c ≤ 'f' then c.toNat - 'a'.toNat + 10
  else c.toNat - 'A'.toNat + 10

/-- `sub in s` (substring containment), as Python's `in` on `str`. -/
def isInfixL (pat : List Char) : List Char → Bool
  | [] => pat.isEmpty
  | c :: rest => pat.isPrefixOf (c :: rest) || isInfixL pat rest

/-- First index of character `c` in `s`, Python `s.find(c)` (−1 as `none`). -/
def findChar (c : Char) (s : List Char) : Option Nat := s.indexOf? c

/-- Python `s.split(sep, 1)` for a single-character separator: split at the
first occurrence only.  Returns `none` when the separator does not occur. -/
def splitFirst (sep : Char) : List Char → Option (List Char × List Char)
  | [] => none
  | c :: rest =>
      if c = sep then some ([], rest)
      else match splitFirst sep rest with
        | some (a, b) => some (c :: a, b)
        | none => none

/-- Python `s.partition(sep)` for a single character: `(before, found, after)`
collapsed to `(before, after-or-empty, found?)`. -/
def partitionChar (sep : Char) (s : List Char) : List Char × List Char × Bool :=
  match splitFirst sep s with
  | some (a, b) => (a, b, true)
  | none => (s, [], false)

/-- Python `s.rpartition(sep)`: split at the last occurrence. -/
def rpartitionChar (sep : Char) (s : List Char) : List Char × List Char × Bool :=
  match splitFirst sep s.reverse with
  | some (a, b) => (b.reverse, a.reverse, true)
  | none => ([], s, false)

/-- Python `s.split(sep)` (no maxsplit) for a one-character separator;
keeps empty chunks, as `str.split` does. -/
def splitAll (sep : Char) (s : List Char) : List (List Char) :=
  s.splitOn sep

/-- `s.replace(old, new)` for single characters. -/
def replaceChar (a b : Char) (s : List Char) : List Char :=
  s.map fun c => if c = a then b else c

/-- `s.count(c)` -/
def countChar (c : Char) (s : List Char) : Nat := s.count c

/-- Lexicographic `<` on Python strings (codepoint order). -/
def strLt : List Char → List Char → Bool
  | [], [] => false
  | [], _ :: _ => true
  | _ :: _, [] => false
  | a :: as', b :: bs' =>
      if a.toNat < b.toNat then true
      else if a = b then strLt as' bs'
      else false

/-- Lexicographic `≤` on Python strings. -/
def strLe (a b : List Char) : Bool := strLt a b || a == b

end Py

namespace Py

/-! UTF-8, as used by `str.encode('utf-8')` / `bytes.decode('utf-8','replace')`
inside `urllib.parse.quote` and `unquote`. -/

/-- UTF-8 encoding of one Unicode scalar value (as byte values). -/
def utf8Enc (n : Nat) : List Nat :=
  if n < 0x80 then [n]
  else if n < 0x800 then [0xC0 + n / 64, 0x80 + n % 64]
  else if n < 0x10000 then [0xE0 + n / 4096, 0x80 + n / 64 % 64, 0x80 + n % 64]
  else [0xF0 + n / 262144, 0x80 + n / 4096 % 64, 0x80 + n / 64 % 64, 0x80 + n % 64]

def isCont (b : Nat) : Bool := 0x80 ≤ b ∧ b ≤ 0xBF

/-- One step of UTF-8 decoding with `errors='replace'`: given the first byte
and the remaining bytes, return the decoded scalar (U+FFFD for a maximal
ill-formed subpart, as in CPython's decoder) and the rest. -/
def utf8Step (b : Nat) (bs : List Nat) : Nat × List Nat :=
  if b < 0x80 then (b, bs)
  else if 0xC2 ≤ b ∧ b ≤ 0xDF then
    match bs with
    | b2 :: bs2 =>
        if isCont b2 then ((b - 0xC0) * 64 + (b2 - 0x80), bs2)
        else (0xFFFD, b2 :: bs2)
    | [] => (0xFFFD, [])
  else if 0xE0 ≤ b ∧ b ≤ 0xEF then
    match bs with
    | b2 :: bs2 =>
        if (b = 0xE0 ∧ 0xA0 ≤ b2 ∧ b2 ≤ 0xBF) ∨
           (b = 0xED ∧ 0x80 ≤ b2 ∧ b2 ≤ 0x9F) ∨
           (b ≠ 0xE0 ∧ b ≠ 0xED ∧ isCont b2) then
          match bs2 with
          | b3 :: bs3 =>
              if isCont b3 then
                ((b - 0xE0) * 4096 + (b2 - 0x80) * 64 + (b3 - 0x80), bs3)
              else (0xFFFD, b3 :: bs3)
          | [] => (0xFFFD, [])
        else (0xFFFD, b2 :: bs2)
    | [] => (0xFFFD, [])
  else if 0xF0 ≤ b ∧ b ≤ 0xF4 then
    match bs with
    | b2 :: bs2 =>
        if (b = 0xF0 ∧ 0x90 ≤ b2 ∧ b2 ≤ 0xBF) ∨
           (b = 0xF4 ∧ 0x80 ≤ b2 ∧ b2 ≤ 0x8F) ∨
           (b ≠ 0xF0 ∧ b ≠ 0xF4 ∧ isCont b2) then
          match bs2 with
          | b3 :: bs3 =>
              if isCont b3 then
                match bs3 with
                | b4 :: bs4 =>
                    if isCont b4 then
                      ((b - 0xF0) * 262144 + (b2 - 0x80) * 4096 +
                        (b3 - 0x80) * 64 + (b4 - 0x80), bs4)
                    else (0xFFFD, b4 :: bs4)
                | [] => (0xFFFD, [])
              else (0xFFFD, b3 :: bs3)
          | [] => (0xFFFD, [])
        else (0xFFFD, b2 :: bs2)
    | [] => (0xFFFD, [])
  else (0xFFFD, bs)

/-- Fuelled decoding loop; each step consumes at least one byte, so a fuel of
`l.length` always suffices. -/
def utf8DecGo : Nat → List Nat → List Nat
  | 0, _ => []
  | _ + 1, [] => []
  | fuel + 1, b :: bs =>
      let s := utf8Step b bs
      s.1 :: utf8DecGo fuel s.2

/-- UTF-8 decoding with `errors='replace'` (CPython's `bytes.decode`). -/
def utf8DecRepl (l : List Nat) : List Nat := utf8DecGo l.length l

/-! `urllib.parse.quote` / `unquote` / `quote_plus` / `unquote_plus` /
`parse_qsl` / `urlencode`, from CPython 3.11 `urllib/parse.py`. -/

/-- `_ALWAYS_SAFE`: ASCII letters, digits, `_.-~`. -/
def alwaysSafeByte (b : Nat) : Bool :=
  (65 ≤ b ∧ b ≤ 90) ∨ (97 ≤ b ∧ b ≤ 122) ∨ (48 ≤ b ∧ b ≤ 57) ∨
  b = 95 ∨ b = 46 ∨ b = 45 ∨ b = 126

def hexUpperDigit (n : Nat) : Char :=
  if n < 10 then Char.ofNat (48 + n) else Char.ofNat (55 + n)

/-- `_Quoter.__missing__`: one byte of `quote_from_bytes` output (the safe set
is the always-safe set united with the ASCII characters of `safe`). -/
def quoteByte (safe : List Char) (b : Nat) : List Char :=
  if alwaysSafeByte b ∨ (b < 128 ∧ safe.contains (Char.ofNat b)) then [Char.ofNat b]
  else ['%', hexUpperDigit (b / 16), hexUpperDigit (b % 16)]

/-- `s.encode('utf-8')` as byte values. -/
def strToUtf8 (s : List Char) : List Nat :=
  (s.map fun c => utf8Enc c.toNat).flatten

/-- `urllib.parse.quote(s, safe)` (string input, default utf-8/strict;
Lean `Char` excludes surrogates, so the `strict` error path cannot occur). -/
def quote (safe s : List Char) : List Char :=
  ((strToUtf8 s).map (quoteByte safe)).flatten

/-- `urllib.parse.quote_plus(s, safe)`. -/
def quote_plus (safe s : List Char) : List Char :=
  if ¬ s.contains ' ' then quote safe s
  else replaceChar ' ' '+' (quote (safe ++ [' ']) s)

def isAsciiChar (c : Char) : Bool := c.toNat < 128

/-- Tokenizer for `unquote`: `%XX` with two hex digits becomes the byte `XX`;
a `%` not followed by two hex digits stays a literal `%` byte; other ASCII
characters are their own byte; non-ASCII characters pass through (they split
the byte runs, exactly as `_asciire.split` does in `unquote`). -/
def unquoteToks : List Char → List (Sum Nat Char)
  | [] => []
  | '%' :: c1 :: c2 :: rest2 =>
      if isHexDigitChar c1 ∧ isHexDigitChar c2 then
        Sum.inl (hexVal c1 * 16 + hexVal c2) :: unquoteToks rest2
      else Sum.inl 37 :: unquoteToks (c1 :: c2 :: rest2)
  | c :: rest =>
      if c = '%' then Sum.inl 37 :: unquoteToks rest
      else if isAsciiChar c then Sum.inl c.toNat :: unquoteToks rest
      else Sum.inr c :: unquoteToks rest

/-- Decode a finished byte run. -/
def bytesToChars (bs : List Nat) : List Char :=
  (utf8DecRepl bs).map Char.ofNat

/-- Regroup the token stream: each maximal byte run is UTF-8-decoded with
`errors='replace'` (one `.decode` call per ASCII run in `unquote`). -/
def unquoteRegroup : List Nat → List (Sum Nat Char) → List Char
  | acc, [] => bytesToChars acc
  | acc, Sum.inl b :: rest => unquoteRegroup (acc ++ [b]) rest
  | acc, Sum.inr c :: rest => bytesToChars acc ++ c :: unquoteRegroup [] rest

/-- `urllib.parse.unquote(s)` with default utf-8/replace. -/
def unquote (s : List Char) : List Char :=
  if ¬ s.contains '%' then s else unquoteRegroup [] (unquoteToks s)

/-- `urllib.parse.unquote_plus(s)`. -/
def unquote_plus (s : List Char) : List Char :=
  unquote (replaceChar '+' ' ' s)

/-- `urllib.parse.parse_qsl(qs, keep_blank_values=True)` (default separator
`&`, non-strict). -/
def parse_qsl (qs : List Char) : List (List Char × List Char) :=
  if qs.isEmpty then []
  else (splitAll '&' qs).filterMap fun nv =>
    if nv.isEmpty then none
    else match splitFirst '=' nv with
      | some (n, v) => some (unquote_plus n, unquote_plus v)
      | none => some (unquote_plus nv, [])

/-- `urllib.parse.urlencode(pairs, doseq=True)` on string pairs. -/
def urlencode (pairs : List (List Char × List Char)) : List Char :=
  List.intercalate ['&']
    (pairs.map fun kv => quote_plus [] kv.1 ++ '=' :: quote_plus [] kv.2)

/-! `urllib.parse.urlsplit` / `urlparse` / `urlunsplit` / `urljoin`,
from CPython 3.11 `urllib/parse.py`. -/

def natOfDigits (s : List Char) : Nat :=
  s.foldl (fun acc c => acc * 10 + (c.toNat - 48)) 0

/-- `ipaddress._parse_octet` validity: 1–3 ASCII digits, no leading zero
unless the octet is exactly `0`, value ≤ 255. -/
def pyIpv4Octet (s : List Char) : Bool :=
  ¬ s.isEmpty ∧ s.length ≤ 3 ∧ s.all isDigitChar ∧
  (s.length = 1 ∨ s.head? ≠ some '0') ∧ natOfDigits s ≤ 255

/-- `ipaddress.IPv4Address` textual validity. -/
def pyIpv4Valid (s : List Char) : Bool :=
  let ps := splitAll '.' s
  ps.length = 4 ∧ ps.all pyIpv4Octet

/-- An IPv6 hextet: 1–4 hex digits. -/
def isHextet (s : List Char) : Bool :=
  ¬ s.isEmpty ∧ s.length ≤ 4 ∧ s.all isHexDigitChar

/-- `ipaddress.IPv6Address._ip_int_from_string` validity (no zone id).
Entries are `some hextet-text`, or `none` for the two hextets contributed by
a trailing dotted-quad. -/
def pyIpv6AddrValid (s : List Char) : Bool :=
  let parts0 := splitAll ':' s
  if parts0.length < 3 then false
  else
    let hasV4 := (parts0.getLast?.getD []).contains '.'
    let v4ok := ¬ hasV4 ∨ pyIpv4Valid (parts0.getLast?.getD [])
    let entries : List (Option (List Char)) :=
      if hasV4 then parts0.dropLast.map some ++ [none, none] else parts0.map some
    let n := entries.length
    let entryOk : Option (List Char) → Bool := fun e =>
      match e with
      | none => true
      | some t => isHextet t
    let middleSkips :=
      (entries.enum.filter fun p => 1 ≤ p.1 ∧ p.1 ≤ n - 2 ∧ p.2 = some []).map Prod.fst
    let skipCase : Bool :=
      match middleSkips with
      | [] =>
          decide (n = 8) && decide (entries.head? ≠ some (some [])) &&
          decide (entries.getLast? ≠ some (some [])) && entries.all entryOk
      | [i] =>
          let firstEmpty := decide (entries.head? = some (some []))
          let lastEmpty := decide (entries.getLast? = some (some []))
          let hi := if firstEmpty then i - 1 else i
          let lo := if lastEmpty then n - i - 2 else n - i - 1
          (!firstEmpty || decide (i = 1)) && (!lastEmpty || decide (i = n - 2)) &&
          decide (hi + lo ≤ 7) &&
          ((entries.take i).all entryOk) && ((entries.drop (i + 1)).all entryOk)
      | _ => false
    v4ok ∧ n ≤ 9 ∧ skipCase

/-- `ipaddress.ip_address` for IPv6, including an optional `%zone` suffix
(zone must be nonempty and free of `%`). -/
def pyIpv6Valid (s : List Char) : Bool :=
  let p := partitionChar '%' s
  (¬ p.2.2 ∨ (¬ p.2.1.isEmpty ∧ ¬ p.2.1.contains '%')) ∧ pyIpv6AddrValid p.1

/-- `urllib.parse._check_bracketed_host` as a validity predicate (`true` means
no `ValueError`). -/
def checkBracketedHost (h : List Char) : Bool :=
  if h.head? = some 'v' then
    -- re.match(r"\Av[a-fA-F0-9]+\..+\Z", h)
    let t := h.drop 1
    let hexRun := t.takeWhile isHexDigitChar
    let rest := t.drop hexRun.length
    ¬ hexRun.isEmpty ∧ rest.head? = some '.' ∧ ¬ (rest.drop 1).isEmpty ∧
      ¬ (rest.drop 1).contains '\n'
  else
    -- ipaddress.ip_address(h); an IPv4Address raises "cannot be in brackets"
    ¬ pyIpv4Valid h ∧ pyIpv6Valid h

structure SplitResult where
  scheme : List Char
  netloc : List Char
  path : List Char
  query : List Char
  fragment : List Char
deriving DecidableEq, Repr

/-- Remove `\t` `\r` `\n` (`_UNSAFE_URL_BYTES_TO_REMOVE`). -/
def removeUnsafe (s : List Char) : List Char :=
  s.filter fun c => ¬ (c = '\t' ∨ c = '\r' ∨ c = '\n')

/-- Strip leading C0 control characters and spaces
(`_WHATWG_C0_CONTROL_OR_SPACE`; `urlsplit` only strips on the left). -/
def lstripC0Space (s : List Char) : List Char :=
  s.dropWhile fun c => c.toNat ≤ 0x20

def isSchemeChar (c : Char) : Bool :=
  isAsciiAlpha c ∨ isDigitChar c ∨ c = '+' ∨ c = '-' ∨ c = '.'

/-- The scheme-detection step of `urlsplit`; returns `(scheme, rest)`.  The
`scheme` argument of `urlsplit` is the default used when no scheme is found
(all our call sites pass values that are already stripped and clean). -/
def splitSchemePart (url defaultScheme : List Char) : List Char × List Char :=
  match findChar ':' url with
  | some i =>
      let headAlpha : Bool :=
        match url.head? with
        | some c => isAsciiChar c && isAsciiAlpha c
        | none => false
      if 0 < i ∧ headAlpha ∧ (url.take i).all isSchemeChar then
        (lower (url.take i), url.drop (i + 1))
      else (defaultScheme, url)
  | none => (defaultScheme, url)

def isNetlocDelim (c : Char) : Bool := c = '/' ∨ c = '?' ∨ c = '#'

/-- `urllib.parse.urlsplit(url, scheme=default)`; `.error` models
`ValueError`.  The NFKC confusable-character check of `_checknetloc` (which
only rejects certain non-ASCII compatibility characters) is modelled as
passing. -/
def urlsplitE (url0 defaultScheme : List Char) : Except Unit SplitResult :=
  let url1 := removeUnsafe (lstripC0Space url0)
  let sp := splitSchemePart url1 defaultScheme
  let scheme := sp.1
  let url2 := sp.2
  let nl : Except Unit (List Char × List Char) :=
    if url2.take 2 = ['/', '/'] then
      let rest := url2.drop 2
      let netloc := rest.takeWhile (fun c => ¬ isNetlocDelim c)
      let url3 := rest.dropWhile (fun c => ¬ isNetlocDelim c)
      if (netloc.contains '[' ∧ ¬ netloc.contains ']') ∨
         (netloc.contains ']' ∧ ¬ netloc.contains '[') then .error ()
      else if netloc.contains '[' ∧ netloc.contains ']' then
        let bracketed := (partitionChar ']' (partitionChar '[' netloc).2.1).1
        if checkBracketedHost bracketed then .ok (netloc, url3) else .error ()
      else .ok (netloc, url3)
    else .ok ([], url2)
  match nl with
  | .error _ => .error ()
  | .ok (netloc, url4) =>
      let fq :=
        match splitFirst '#' url4 with
        | some (u, f) => (u, f)
        | none => (url4, [])
      let pq :=
        match splitFirst '?' fq.1 with
        | some (u, q) => (u, q)
        | none => (fq.1, [])
      .ok ⟨scheme, netloc, pq.1, pq.2, fq.2⟩

/-- `_hostinfo`: `(hostname-text, port-text?)` of a netloc. -/
def hostinfoOf (netloc : List Char) : List Char × Option (List Char) :=
  let hostinfo := (rpartitionChar '@' netloc).2.1
  let br := partitionChar '[' hostinfo
  if br.2.2 then
    let hb := partitionChar ']' br.2.1
    let pt := (partitionChar ':' hb.2.1).2.1
    (hb.1, if pt.isEmpty then none else some pt)
  else
    let hp := partitionChar ':' hostinfo
    (hp.1, if hp.2.1.isEmpty then none else some hp.2.1)

/-- The `hostname` property: lowercased (zone id after `%` preserved),
`none` when empty. -/
def hostnameOf (netloc : List Char) : Option (List Char) :=
  let h := (hostinfoOf netloc).1
  if h.isEmpty then none
  else
    let z := partitionChar '%' h
    some (if z.2.2 then lower z.1 ++ '%' :: z.2.1 else lower z.1)

/-- The `port` property: `.error` models the `ValueError` raised on a
non-(ASCII-digit) or out-of-range port. -/
def portOfE (netloc : List Char) : Except Unit (Option Nat) :=
  match (hostinfoOf netloc).2 with
  | none => .ok none
  | some p =>
      if ¬ p.isEmpty ∧ p.all isDigitChar then
        if natOfDigits p ≤ 65535 then .ok (some (natOfDigits p)) else .error ()
      else .error ()

def memS (l : List String) (s : List Char) : Bool :=
  l.any fun t => t.data == s

def usesRelativeList : List String :=
  ["", "ftp", "http", "gopher", "nntp", "imap", "wais", "file", "https",
   "shttp", "mms", "prospero", "rtsp", "rtsps", "rtspu", "sftp", "svn",
   "svn+ssh", "ws", "wss"]

def usesNetlocList : List String :=
  ["", "ftp", "http", "gopher", "nntp", "telnet", "imap", "wais", "file",
   "mms", "https", "shttp", "snews", "prospero", "rtsp", "rtsps", "rtspu",
   "rsync", "svn", "svn+ssh", "sftp", "nfs", "git", "git+ssh", "ws", "wss"]

def usesParamsList : List String :=
  ["", "ftp", "hdl", "prospero", "http", "imap", "https", "shttp", "rtsp",
   "rtsps", "rtspu", "sip", "sips", "mms", "sftp", "tel"]

def lastIndexOfChar (c : Char) (s : List Char) : Option Nat :=
  (s.reverse.indexOf? c).map fun k => s.length - 1 - k

def findCharFrom (c : Char) (s : List Char) (start : Nat) : Option Nat :=
  ((s.drop start).indexOf? c).map (· + start)

/-- `_splitparams` (only reached when `;` occurs in the path). -/
def splitparams (url : List Char) : List Char × List Char :=
  if url.contains '/' then
    let j := (lastIndexOfChar '/' url).getD 0
    match findCharFrom ';' url j with
    | none => (url, [])
    | some i => (url.take i, url.drop (i + 1))
  else
    match findChar ';' url with
    | none => (url, [])
    | some i => (url.take i, url.drop (i + 1))

structure ParseResult where
  scheme : List Char
  netloc : List Char
  path : List Char
  params : List Char
  query : List Char
  fragment : List Char
deriving DecidableEq, Repr

/-- `urllib.parse.urlparse(url, scheme=default)`. -/
def urlparseE (url defaultScheme : List Char) : Except Unit ParseResult := do
  let r ← urlsplitE url defaultScheme
  if memS usesParamsList r.scheme ∧ r.path.contains ';' then
    let pp := splitparams r.path
    return ⟨r.scheme, r.netloc, pp.1, pp.2, r.query, r.fragment⟩
  else
    return ⟨r.scheme, r.netloc, r.path, [], r.query, r.fragment⟩

/-- `urllib.parse.urlunsplit`. -/
def urlunsplit (scheme netloc path query fragment : List Char) : List Char :=
  let url := path
  let url :=
    if ¬ netloc.isEmpty ∨
       (¬ scheme.isEmpty ∧ memS usesNetlocList scheme ∧ url.take 2 ≠ ['/', '/']) then
      let url' := if ¬ url.isEmpty ∧ url.head? ≠ some '/' then '/' :: url else url
      '/' :: '/' :: (netloc ++ url')
    else url
  let url := if ¬ scheme.isEmpty then scheme ++ ':' :: url else url
  let url := if ¬ query.isEmpty then url ++ '?' :: query else url
  if ¬ fragment.isEmpty then url ++ '#' :: fragment else url

/-- `urllib.parse.urlunparse`. -/
def urlunparse (scheme netloc path params query fragment : List Char) : List Char :=
  let url := if ¬ params.isEmpty then path ++ ';' :: params else path
  urlunsplit scheme netloc url query fragment

/-- `urllib.parse.urljoin`; `.error` models an uncaught `ValueError` from
parsing either argument. -/
def urljoinE (base url : List Char) : Except Unit (List Char) :=
  if base.isEmpty then .ok url
  else if url.isEmpty then .ok base
  else do
    let b ← urlparseE base []
    let u ← urlparseE url b.scheme
    if u.scheme ≠ b.scheme ∨ ¬ memS usesRelativeList u.scheme then
      return url
    let netloc0 := u.netloc
    if memS usesNetlocList u.scheme ∧ ¬ netloc0.isEmpty then
      return urlunparse u.scheme netloc0 u.path u.params u.query u.fragment
    let netloc := if memS usesNetlocList u.scheme then b.netloc else netloc0
    if u.path.isEmpty ∧ u.params.isEmpty then
      let query := if u.query.isEmpty then b.query else u.query
      return urlunparse u.scheme netloc b.path b.params query u.fragment
    let baseParts0 := splitAll '/' b.path
    let baseParts :=
      if baseParts0.getLast? ≠ some [] then baseParts0.dropLast else baseParts0
    let segments :=
      if u.path.head? = some '/' then splitAll '/' u.path
      else
        match baseParts ++ splitAll '/' u.path with
        | [] => []
        | [x] => [x]
        | x :: rest =>
            x :: (rest.dropLast.filter fun t => ¬ t.isEmpty) ++ [rest.getLast?.getD []]
    let resolved := segments.foldl
      (fun acc seg =>
        if seg = ['.', '.'] then acc.dropLast
        else if seg = ['.'] then acc
        else acc ++ [seg]) []
    let resolved :=
      if segments.getLast? = some ['.'] ∨ segments.getLast? = some ['.', '.'] then
        resolved ++ [[]]
      else resolved
    let joined := List.intercalate ['/'] resolved
    let newPath := if joined.isEmpty then ['/'] else joined
    return urlunparse u.scheme netloc newPath u.params u.query u.fragment

/-- `posixpath.normpath`. -/
def normpath (path : List Char) : List Char :=
  if path.isEmpty then ['.']
  else
    let initialSlashes : Nat :=
      if path.head? = some '/' then
        if path.take 2 = ['/', '/'] ∧ path.take 3 ≠ ['/', '/', '/'] then 2 else 1
      else 0
    let comps := splitAll '/' path
    let newComps := comps.foldl
      (fun acc comp =>
        if comp = [] ∨ comp = ['.'] then acc
        else if comp ≠ ['.', '.'] ∨ (initialSlashes = 0 ∧ acc = []) ∨
                acc.getLast? = some ['.', '.'] then acc ++ [comp]
        else if ¬ acc.isEmpty then acc.dropLast
        else acc) []
    let path2 := List.replicate initialSlashes '/' ++ List.intercalate ['/'] newComps
    if path2.isEmpty then ['.'] else path2

/-- `re.sub(r"/\x7b2,\x7d", "/", s)`: collapse each run of two or more
slashes to one (a single slash is left alone, so every run maps to one). -/
def csAux : Bool → List Char → List Char
  | _, [] => []
  | prev, c :: rest =>
      if c = '/' then
        if prev then csAux true rest else '/' :: csAux true rest
      else c :: csAux false rest

def collapseSlashes (s : List Char) : List Char := csAux false s

/-- `re.sub(r"#.*$", "", s)`: `.` does not match a newline and `$` matches at
the end or just before a final newline, so the first `#` whose suffix has no
newline except possibly a final one starts the removed span (a final newline
survives). -/
def removeFragment : List Char → List Char
  | [] => []
  | c :: rest =>
      if c = '#' ∧ ¬ rest.dropLast.contains '\n' then
        if rest.contains '\n' then ['\n'] else []
      else c :: removeFragment rest

/-- `re.match(r"^core$", s)`: with a `$` anchor the pattern also matches when
a single final newline follows (the core patterns used here cannot contain a
newline themselves). -/
def matchEndAnchored (core : List Char → Bool) (s : List Char) : Bool :=
  core s ∨ (s.getLast? = some '\n' ∧ core s.dropLast)

/-- Body of `^\d+$`. -/
def intCore (s : List Char) : Bool := ¬ s.isEmpty ∧ s.all isDigitChar

/-- Body of `^[0-9a-f]\x7b16,\x7d$` with `re.I`. -/
def hexCore (s : List Char) : Bool := 16 ≤ s.length ∧ s.all isHexDigitChar

/-- Body of the RFC-variant UUID regex (case-insensitive). -/
def uuidCore (s : List Char) : Bool :=
  match splitAll '-' s with
  | [a, b, c, d, e] =>
      let cHead : Bool :=
        match c.head? with
        | some ch => decide ('1' ≤ ch) && decide (ch ≤ '5')
        | none => false
      let dHead : Bool :=
        match d.head? with
        | some ch =>
            decide (ch = '8' ∨ ch = '9' ∨ ch = 'a' ∨ ch = 'b' ∨ ch = 'A' ∨ ch = 'B')
        | none => false
      decide (a.length = 8) && a.all isHexDigitChar &&
      decide (b.length = 4) && b.all isHexDigitChar &&
      decide (c.length = 4) && c.all isHexDigitChar && cHead &&
      decide (d.length = 4) && d.all isHexDigitChar && dHead &&
      decide (e.length = 12) && e.all isHexDigitChar
  | _ => false

/-- Body of `^\d\x7b1,3\x7d(\.\d\x7b1,3\x7d)\x7b3\x7d$`. -/
def ipv4Core (s : List Char) : Bool :=
  let groups := splitAll '.' s
  groups.length = 4 ∧
  groups.all fun g => ¬ g.isEmpty ∧ g.length ≤ 3 ∧ g.all isDigitChar

/-- Stable insertion sort by a strict order (ties keep input order, like
Python's `list.sort`). -/
def insertByLt {α : Type} (lt : α → α → Bool) (x : α) : List α → List α
  | [] => [x]
  | y :: ys => if lt y x then y :: insertByLt lt x ys else x :: y :: ys

def sortByLt {α : Type} (lt : α → α → Bool) : List α → List α
  | [] => []
  | x :: xs => insertByLt lt x (sortByLt lt xs)

/-- ASCII, not strippable whitespace, and none of `#`, `\t`, `\r`, `\n`:
characters on which `urlsplit`'s cleanup steps and the fragment regex are
inert. -/
def urlTextOk (ch : Char) : Bool :=
  ch.toNat < 128 ∧ 0x20 < ch.toNat ∧ ch ≠ '#'

end Py

deriving instance DecidableEq for Except

namespace Recon

open Py

/-! `src/recon/url_canonicalize.py` -/

/-- `_TRACKING_KEYS`. -/
def trackingKeys : List String :=
  ["fbclid", "gclid", "igshid", "mc_cid", "mc_eid", "msclkid", "ref",
   "ref_src", "spm", "utm_campaign", "utm_content", "utm_medium", "utm_name",
   "utm_source", "utm_term"]

/-- `is_ip_hostname`. -/
def is_ip_hostname (hostname : List Char) : Bool :=
  if hostname.isEmpty then false
  else matchEndAnchored ipv4Core (lower (strip hostname))

structure CanonicalUrl where
  url : List Char
  scheme : List Char
  host : List Char
  path : List Char
  query : List Char
deriving DecidableEq, Repr

/-- The `safe` argument of the `quote` call in `_normalize_path`. -/
def pathSafe : List Char := "/:@-._~!$&'()*+,;=".data

/-- `_normalize_path`. -/
def normalizePath (path : List Char) : List Char :=
  let raw := if path.isEmpty then "/".data else path
  let raw := collapseSlashes raw
  let normalized := normpath raw
  let normalized := if normalized.head? ≠ some '/' then '/' :: normalized else normalized
  let normalized := if normalized = "/.".data then "/".data else normalized
  let normalized :=
    if normalized ≠ "/".data ∧ normalized.getLast? = some '/' then
      rstripSet ['/'] normalized
    else normalized
  let normalized := quote pathSafe (unquote normalized)
  if normalized.isEmpty then "/".data else normalized

/-- Lowercased key in the tracking set, or starting with `utm_`. -/
def isTrackingKey (low : List Char) : Bool :=
  memS trackingKeys low ∨ low.take 4 = "utm_".data

/-- Strict order underlying `filtered.sort(key=lambda kv: (kv[0].lower(), kv[1]))`. -/
def pairKeyLt (a b : List Char × List Char) : Bool :=
  strLt (lower a.1) (lower b.1) ∨ (lower a.1 = lower b.1 ∧ strLt a.2 b.2)

/-- `_filter_and_sort_query_pairs`. -/
def filterSortQueryPairs (pairs : List (List Char × List Char))
    (remove_tracking : Bool) : List (List Char × List Char) :=
  let filtered := pairs.filterMap fun kv =>
    let key := strip kv.1
    if key.isEmpty then none
    else if remove_tracking ∧ isTrackingKey (lower key) then none
    else some (key, kv.2)
  sortByLt pairKeyLt filtered

def natToDigits (n : Nat) : List Char := Nat.toDigits 10 n

/-- `canonicalize_url(raw, base, remove_tracking=...)`.  The result is
`.error` when the Python function would raise (only `parts.port` can raise
out of it), otherwise `some`/`none` as the function returns. -/
def canonicalize_url (raw : List Char) (base : Option (List Char))
    (remove_tracking : Bool) : Except Unit (Option CanonicalUrl) :=
  if raw.isEmpty then .ok none
  else
    let value := strip raw
    if value.isEmpty then .ok none
    else
      let value := removeFragment value
      let value :=
        match base with
        | some b =>
            if ¬ b.isEmpty then
              match urljoinE b value with
              | .ok v => v
              | .error _ => value
            else value
        | none => value
      let value :=
        if value.take 2 = "//".data then
          let baseScheme :=
            match base with
            | some b =>
                if ¬ b.isEmpty then
                  match urlsplitE b [] with
                  | .ok r => r.scheme
                  | .error _ => []
                else []
            | none => []
          (if baseScheme.isEmpty then "http".data else baseScheme) ++ ':' :: value
        else value
      let parts0 : Option SplitResult :=
        match urlsplitE value [] with
        | .ok r => some r
        | .error _ => none
      let needRetry :=
        match parts0 with
        | none => true
        | some p => p.scheme.isEmpty ∨ p.netloc.isEmpty
      let parts1 : Option SplitResult :=
        if needRetry then
          let assumed :=
            match base with
            | some b =>
                if ¬ b.isEmpty then
                  match urlsplitE b [] with
                  | .ok r => if r.scheme.isEmpty then "http".data else r.scheme
                  | .error _ => "http".data
                else "http".data
            | none => "http".data
          match urlsplitE (assumed ++ "://".data ++ value) [] with
          | .ok r => some r
          | .error _ => none
        else parts0
      match parts1 with
      | none => .ok none
      | some parts =>
          let scheme := lower parts.scheme
          if ¬ (scheme = "http".data ∨ scheme = "https".data) then .ok none
          else
            let host := rstripSet ['.'] (lower ((hostnameOf parts.netloc).getD []))
            if host.isEmpty then .ok none
            else
              match portOfE parts.netloc with
              | .error _ => .error ()
              | .ok port0 =>
                  let portTruthy :=
                    match port0 with
                    | some p => p ≠ 0
                    | none => false
                  let dropDefault := portTruthy &&
                    decide ((scheme = "http".data ∧ port0 = some 80) ∨
                     (scheme = "https".data ∧ port0 = some 443))
                  let port1 : Option Nat := if dropDefault then none else port0
                  let netlocStr :=
                    match port1 with
                    | some p => if p = 0 then host else host ++ ':' :: natToDigits p
                    | none => host
                  let path := normalizePath (if parts.path.isEmpty then "/".data else parts.path)
                  let queryPairs := parse_qsl parts.query
                  let normalizedPairs := filterSortQueryPairs queryPairs remove_tracking
                  let query := urlencode normalizedPairs
                  let url := urlunsplit scheme netlocStr path query []
                  .ok (some ⟨url, scheme, netlocStr, path, query⟩)

/-- `canonical_url`: the canonical URL string, `""` on failure. -/
def canonical_url (raw : List Char) (base : Option (List Char))
    (remove_tracking : Bool) : Except Unit (List Char) :=
  (canonicalize_url raw base remove_tracking).map fun o =>
    match o with
    | some c => c.url
    | none => []

/-- `_normalize_value_token`. -/
def normalizeValueToken (v : List Char) : List Char :=
  if v.isEmpty then []
  else if matchEndAnchored intCore v then "{int}".data
  else if matchEndAnchored uuidCore v then "{uuid}".data
  else if matchEndAnchored hexCore v then "{hex}".data
  else if 64 < v.length then "{long}".data
  else "{str}".data

/-- `_normalize_path_segment`. -/
def normalizePathSegment (seg : List Char) : List Char :=
  let s := strip seg
  if s.isEmpty then []
  else if matchEndAnchored intCore s then "{int}".data
  else if matchEndAnchored uuidCore s then "{uuid}".data
  else if matchEndAnchored hexCore s then "{hex}".data
  else if 64 < s.length then "{long}".data
  else s

/-- Strict order underlying `q_norm.sort()` (plain tuple comparison). -/
def pairLt (a b : List Char × List Char) : Bool :=
  strLt a.1 b.1 ∨ (a.1 = b.1 ∧ strLt a.2 b.2)

/-- `url_pattern_key`. -/
def url_pattern_key (url : List Char) : List Char :=
  match urlsplitE url [] with
  | .error _ => url
  | .ok parts =>
      let host := lower ((hostnameOf parts.netloc).getD [])
      if host.isEmpty then url
      else
        let path := unquote (if parts.path.isEmpty then "/".data else parts.path)
        let path := collapseSlashes path
        let path :=
          if path ≠ "/".data ∧ path.getLast? = some '/' then path.dropLast else path
        let segs := (splitAll '/' path).filter fun s => ¬ s.isEmpty
        let normSegs := segs.map normalizePathSegment
        let normPath :=
          if ¬ normSegs.isEmpty then
            '/' :: List.intercalate ['/'] (normSegs.filter fun s => ¬ s.isEmpty)
          else "/".data
        let q := parse_qsl parts.query
        let qNorm := q.filterMap fun kv =>
          let key := lower (strip kv.1)
          if key.isEmpty then none else some (key, normalizeValueToken kv.2)
        let qNorm := sortByLt pairLt qNorm
        if ¬ qNorm.isEmpty then
          host ++ normPath ++ '?' ::
            List.intercalate ['&'] (qNorm.map fun kv => kv.1 ++ '=' :: kv.2)
        else host ++ normPath

/-- `query_param_count`. -/
def query_param_count (url : List Char) : Nat :=
  match urlsplitE url [] with
  | .error _ => 0
  | .ok parts => (parse_qsl parts.query).length

/-! `src/recon/html_link_discovery.py`.

The module imports `canonical_url`, `query_param_count`, `url_pattern_key`
and `is_ip_hostname` together from `recon.url_canonicalize`; `crawl` raises
when `canonical_url` is `None`, so inside any crawl all four are available
and we model them as such.  `classify_url` (from `recon.url_classify`, a
module whose source is not part of the read repository slice) is a separate
optional import and is kept as a parameter (`none` models a failed import,
in which case the source uses `"page"`).  The HTTP client, the wall clock
and the iteration order of the Python `set` of extracted links are oracles.
`js_config=None`, `headless=False` and `requests`-availability follow the
`crawl` signature defaults. -/

/-- `apex_of` (all branches return the lowercased host; the structure of the
source's three cases is kept). -/
def apex_of (host : List Char) : List Char :=
  let host := lower host
  if is_ip_hostname host then host
  else if host.contains ':' then host
  else host

/-- `is_http_url`: `re.match(r"^https?://", u, re.I)`. -/
def is_http_url (u : List Char) : Bool :=
  lower (u.take 7) = "http://".data ∨ lower (u.take 8) = "https://".data

/-- `absolute_url`. -/
def absolute_url (base href : List Char) : List Char :=
  match urljoinE base href with
  | .ok v => v
  | .error _ => href

/-- `re` whitespace `\s` (ASCII part). -/
def isReWS (c : Char) : Bool :=
  c = ' ' ∨ c = '\t' ∨ c = '\n' ∨ c = '\r' ∨ c.toNat = 11 ∨ c.toNat = 12

/-- One attempt of the fallback link regex
`(?:href|src)\s*=\s*['\"]([^'\"]+)['\"]` (with `re.I`) at the current
position; returns the captured group and the rest after the match. -/
def lmatchAttr (s : List Char) : Option (List Char × List Char) :=
  let afterAttr : Option (List Char) :=
    if lower (s.take 4) = "href".data then some (s.drop 4)
    else if lower (s.take 3) = "src".data then some (s.drop 3)
    else none
  match afterAttr with
  | none => none
  | some t1 =>
      match (t1.dropWhile isReWS) with
      | '=' :: t3 =>
          match t3.dropWhile isReWS with
          | q :: t5 =>
              if q = '\'' ∨ q = '"' then
                let grp := t5.takeWhile fun c => ¬ (c = '\'' ∨ c = '"')
                match t5.drop grp.length with
                | q2 :: t7 =>
                    if (q2 = '\'' ∨ q2 = '"') ∧ ¬ grp.isEmpty then some (grp, t7)
                    else none
                | [] => none
              else none
          | [] => none
      | _ => none

/-- `re.finditer` scan for the fallback link regex (left-to-right,
non-overlapping); fuel is the string length, enough since every match
consumes at least one character. -/
def scanAttrGo : Nat → List Char → List (List Char)
  | 0, _ => []
  | _ + 1, [] => []
  | fuel + 1, c :: rest =>
      match lmatchAttr (c :: rest) with
      | some (g, after) => g :: scanAttrGo fuel after
      | none => scanAttrGo fuel rest

/-- `extract_links(html, base_url)` in the regex-fallback configuration
(`BeautifulSoup is None`); the resulting Python `set` is represented as the
deduplicated list of matches in match order (iteration order of the set is
supplied by the oracle at the call site). -/
def extract_links (html base : List Char) : List (List Char) :=
  ((scanAttrGo html.length html).filterMap fun g =>
    let u := absolute_url base g
    if is_http_url u then some u else none).dedup

/-- One attempt of `'"target"\s*:\s*"([^"]+)"'` (with `re.I`). -/
def lmatchTarget (s : List Char) : Option (List Char × List Char) :=
  if lower (s.take 8) = "\"target\"".data then
    match (s.drop 8).dropWhile isReWS with
    | ':' :: t3 =>
        match t3.dropWhile isReWS with
        | '"' :: t5 =>
            let grp := t5.takeWhile fun c => c ≠ '"'
            match t5.drop grp.length with
            | '"' :: t7 => if ¬ grp.isEmpty then some (grp, t7) else none
            | _ => none
        | _ => none
    | _ => none
  else none

def scanTargetGo : Nat → List Char → List (List Char)
  | 0, _ => []
  | _ + 1, [] => []
  | fuel + 1, c :: rest =>
      match lmatchTarget (c :: rest) with
      | some (g, after) => g :: scanTargetGo fuel after
      | none => scanTargetGo fuel rest

/-- `extract_search_targets(html)`: `sorted(set(...))`. -/
def extract_search_targets (html : List Char) : List (List Char) :=
  sortByLt strLt (scanTargetGo html.length html).dedup

/-- `build_query_urls(base_url, seeds)`. -/
def build_query_urls (base : List Char) (seeds : List (List Char)) : List (List Char) :=
  seeds.filterMap fun q =>
    let qv := strip q
    if qv.isEmpty then none
    else if base.contains '?' then some (base ++ "&query=".data ++ qv)
    else some (base ++ "?query=".data ++ qv)

/-- `_host_in_scope(host, apex)`. -/
def host_in_scope (host apex : List Char) : Bool :=
  let h := lower host
  if h.isEmpty then false
  else if is_ip_hostname apex then h = apex
  else if h = apex then true
  else ('.' :: apex).isSuffixOf h

/-- `_priority_score(url, host_seen=…, pattern_seen_count=…)`.  `urlparse`
differs from `urlsplit` only in the params split, which does not affect the
`hostname`, `scheme` and `query` fields used here; a parse `ValueError` is
caught and scores `0.0`.  Every score the source can produce is an exact
float equal to an integer multiple of 1/16, so scores are embedded as that
integer numerator: the value here is 16 times the source's float, exactly
(e.g. `+120.0` is `120 * 16`, and `max(0, len-24)/16.0` capped at `30.0` is
`min (30*16) (max 0 (len-24))`).  Comparisons and all downstream uses are
order- and value-faithful under this fixed scaling. -/
def priority_score (url : List Char) (hostSeen : List (List Char))
    (patternSeenCount : Nat) : Int :=
  match urlsplitE url [] with
  | .error _ => 0
  | .ok p =>
      let host := lower ((hostnameOf p.netloc).getD [])
      let scheme := lower p.scheme
      let s1 : Int := if ¬ host.isEmpty ∧ ¬ hostSeen.contains host then 120 * 16 else 0
      let s2 : Int :=
        if ¬ host.isEmpty ∧ is_ip_hostname host ∧ ¬ hostSeen.contains host then 80 * 16 else 0
      let s3 : Int := if scheme = "https".data then 8 * 16 else 0
      let qn := query_param_count url
      let s4 : Int := if qn ≠ 0 then -(18 * 16 + min (60 * 16) ((qn : Int) * 10 * 16)) else 0
      let s5 : Int :=
        if ¬ p.query.isEmpty then -(min (30 * 16) (max 0 ((p.query.length : Int) - 24))) else 0
      let s6 : Int := -(min (80 * 16) ((patternSeenCount : Int) * 8 * 16))
      s1 + s2 + s3 + s4 + s5 + s6

/-- Modelled from the spec (§4.2): `recon.url_classify.classify_url`, whose
source file is not part of the provided repository slice.  Labels a URL
`asset` by static extension, `feed` by feed-ish path, `api` by api-ish first
segment or data extension, else `page`. -/
def classify_url_spec (url : List Char) : List Char :=
  match urlsplitE url [] with
  | .error _ => "page".data
  | .ok p =>
      let path := lower p.path
      let segs := (splitAll '/' path).filter fun s => ¬ s.isEmpty
      let ext :=
        match lastIndexOfChar '.' path with
        | some i => path.drop (i + 1)
        | none => []
      let assetExts : List String :=
        ["png", "jpg", "jpeg", "gif", "svg", "ico", "css", "js", "woff",
         "woff2", "ttf", "eot", "mp4", "mp3", "webm", "zip", "gz", "tar",
         "pdf", "doc", "docx"]
      let feedSegs : List String := ["feed", "rss", "atom"]
      let apiSegs : List String := ["api", "v1", "v2", "rest", "graphql"]
      let headApi : Bool :=
        match segs.head? with
        | some s => memS apiSegs s
        | none => false
      if memS assetExts ext then "asset".data
      else if memS ["rss", "atom"] ext ∨ segs.any (fun s => memS feedSegs s) then "feed".data
      else if headApi ∨ memS ["json", "xml"] ext then "api".data
      else "page".data

structure Node where
  url : List Char
  depth : Nat
  parent : Option (List Char)
  score : Int
  kind : List Char
deriving DecidableEq, Repr

structure Resp where
  finalUrl : List Char
  status : Int
  contentType : List Char
  body : List Char

structure CrawlCfg where
  startUrls : List (List Char)
  apex : List Char
  maxRequests : Option Int
  maxNodes : Option Int
  maxTime : Option ℚ
  maxDepth : Option Int
  maxPerPattern : Int
  seedQueries : Option (List (List Char))
  removeTracking : Bool
  hasRequestsLib : Bool
  classify : Option (List Char → List Char)

structure Oracle where
  elapsed : Nat → ℚ
  fetch : Nat → Option Resp
  reorder : Nat → List (List Char) → List (List Char)

structure St where
  stopReason : List Char
  visited : List (List Char)
  enqueued : List (List Char)
  discovered : List (List Char × Node)
  edges : List (List Char × List Char)
  hostSeen : List (List Char)
  patternCounts : List (List Char × Nat)
  suppressedByPattern : List (List Char × Nat)
  pages : List (List Char)
  api : List (List Char)
  feeds : List (List Char)
  assets : List (List Char)
  queryUrls : List (List Char)
  subdomains : List (List Char)
  directoriesByHost : List (List Char × List (List Char))
  requestsMade : Nat
  maxDepthReached : Nat
  frontier : List ((Int × Nat × Nat) × List Char)
  seqCounter : Nat
  timeIdx : Nat
deriving DecidableEq

def initSt : St :=
  ⟨[], [], [], [], [], [], [], [], [], [], [], [], [], [], [], 0, 0, [], 0, 0⟩

def lookupD {V : Type} (m : List (List Char × V)) (k : List Char) : Option V :=
  (m.find? fun e => e.1 = k).map Prod.snd

def getCount (m : List (List Char × Nat)) (k : List Char) : Nat :=
  (lookupD m k).getD 0

/-- `defaultdict(int)` `+= 1` at a key (keys are unique; the first — only —
entry with the key is updated, or a fresh entry appended). -/
def bump : List (List Char × Nat) → List Char → List (List Char × Nat)
  | [], k => [(k, 1)]
  | e :: rest, k => if e.1 = k then (e.1, e.2 + 1) :: rest else e :: bump rest k

def setInsert {α : Type} [DecidableEq α] (l : List α) (x : α) : List α :=
  if x ∈ l then l else l ++ [x]

def dirInsert (m : List (List Char × List (List Char))) (k v : List Char) :
    List (List Char × List (List Char)) :=
  if (lookupD m k).isSome then
    m.map fun e => if e.1 = k then (e.1, setInsert e.2 v) else e
  else m ++ [(k, [v])]

/-- `budget_hit()`: returns whether a budget axis is hit; the returned state
records the consumed wall-clock sample and any assigned `stop_reason`. -/
def budgetHit (cfg : CrawlCfg) (ω : Oracle) (st : St) : Bool × St :=
  let timeActive : Bool :=
    match cfg.maxTime with
    | some t => decide (0 < t)
    | none => false
  let timeHit : Bool := timeActive && decide (cfg.maxTime.getD 0 ≤ ω.elapsed st.timeIdx)
  let st := if timeActive then {st with timeIdx := st.timeIdx + 1} else st
  if timeHit then (true, {st with stopReason := "maxTime".data})
  else
    let reqHit : Bool :=
      match cfg.maxRequests with
      | some m => decide (0 < m ∧ m ≤ (st.requestsMade : Int))
      | none => false
    if reqHit then (true, {st with stopReason := "maxRequests".data})
    else
      let nodeHit : Bool :=
        match cfg.maxNodes with
        | some m => decide (0 < m ∧ m ≤ (st.discovered.length : Int))
        | none => false
      if nodeHit then (true, {st with stopReason := "maxNodes".data})
      else (false, st)

/-- `add_discovered(child_url, parent_url=…, depth=…, kind=…, from_frontier=…)`. -/
def add_discovered (cfg : CrawlCfg) (ω : Oracle) (st : St) (child : List Char)
    (parentUrl : Option (List Char)) (depth : Nat) (kind : List Char)
    (fromFrontier : Bool) : St :=
  if child.isEmpty then st
  else if (lookupD st.discovered child).isSome then st
  else
    let bh := budgetHit cfg ω st
    if bh.1 then bh.2
    else
      let st := bh.2
      let host :=
        match urlsplitE child [] with
        | .error _ => []
        | .ok p => lower ((hostnameOf p.netloc).getD [])
      let pattern := url_pattern_key child
      let capActive : Bool := cfg.maxPerPattern ≠ 0 && ¬ pattern.isEmpty
      if capActive ∧ cfg.maxPerPattern ≤ (getCount st.patternCounts pattern : Int) then
        {st with suppressedByPattern := bump st.suppressedByPattern pattern}
      else
        let st :=
          if capActive then {st with patternCounts := bump st.patternCounts pattern}
          else st
        let patternSeen : Nat := getCount st.patternCounts pattern - 1
        let score := priority_score child st.hostSeen patternSeen
        let node : Node := ⟨child, depth, parentUrl, score, kind⟩
        let st := {st with discovered := st.discovered ++ [(child, node)]}
        let st :=
          if st.maxDepthReached < depth then {st with maxDepthReached := depth} else st
        let st :=
          if ¬ host.isEmpty then
            let st := {st with hostSeen := setInsert st.hostSeen host}
            if host_in_scope host cfg.apex ∧ host ≠ cfg.apex then
              {st with subdomains := setInsert st.subdomains host}
            else st
          else st
        let st :=
          match parentUrl with
          | some p => if ¬ p.isEmpty then {st with edges := setInsert st.edges (p, child)} else st
          | none => st
        if ¬ fromFrontier then st
        else if (match cfg.maxDepth with
                 | some md => decide ((depth : Int) > md)
                 | none => false) then st
        else if ¬ (kind = "page".data ∨ kind = "api".data) then st
        else if st.visited.contains child ∨ st.enqueued.contains child then st
        else
          let prio := (-score, depth, st.seqCounter)
          {st with seqCounter := st.seqCounter + 1,
                   frontier := st.frontier ++ [(prio, child)],
                   enqueued := setInsert st.enqueued child}

/-- The seeding loop of `crawl` (`for raw in start_urls: …`); `.error` models
an uncaught exception from `canonical_url`. -/
def seedPhase (cfg : CrawlCfg) (ω : Oracle) : Except Unit St :=
  cfg.startUrls.foldlM
    (fun st raw => do
      let cu ← canonical_url raw (some raw) cfg.removeTracking
      if cu.isEmpty then return st
      else
        let host :=
          match urlsplitE cu [] with
          | .error _ => []
          | .ok p => lower ((hostnameOf p.netloc).getD [])
        if ¬ host.isEmpty ∧ ¬ host_in_scope host cfg.apex then return st
        else return add_discovered cfg ω st cu none 0 "page".data true)
    initSt

def prioLt (a b : Int × Nat × Nat) : Bool :=
  a.1 < b.1 ∨ (a.1 = b.1 ∧ (a.2.1 < b.2.1 ∨ (a.2.1 = b.2.1 ∧ a.2.2 < b.2.2)))

/-- `heapq.heappop`: extract the least `((−score, depth, seq), url)` element
(sequence numbers are unique, so the minimum is unique and the heap's
behaviour is exactly min-extraction). -/
def popMin (l : List ((Int × Nat × Nat) × List Char)) :
    ((Int × Nat × Nat) × List Char) × List ((Int × Nat × Nat) × List Char) :=
  match l with
  | [] => (((0, 0, 0), []), [])
  | x :: xs =>
      let m := xs.foldl (fun acc y => if prioLt y.1 acc.1 then y else acc) x
      (m, l.erase m)

/-- `kind = classify_url(cu) if classify_url is not None else "page"`. -/
def classifyOf (cfg : CrawlCfg) (u : List Char) : List Char :=
  match cfg.classify with
  | some f => f u
  | none => "page".data

/-- The per-link body of the main loop (lines 457–487): canonicalize against
the base, scope-check, classify, record per-kind sets and directory hints,
then `add_discovered(..., from_frontier=True)`. -/
def processLink (cfg : CrawlCfg) (ω : Oracle) (baseUrl parentCanonical : List Char)
    (parentDepth : Nat) (st : St) (link : List Char) : Except Unit St := do
  let cu ← canonical_url link (some baseUrl) cfg.removeTracking
  if cu.isEmpty then return st
  match urlsplitE cu [] with
  | .error _ => return st
  | .ok p =>
      let host := lower ((hostnameOf p.netloc).getD [])
      if host.isEmpty ∨ ¬ host_in_scope host cfg.apex then return st
      let kind := classifyOf cfg cu
      let st :=
        if kind = "asset".data then {st with assets := setInsert st.assets cu}
        else if kind = "feed".data then {st with feeds := setInsert st.feeds cu}
        else if kind = "api".data then {st with api := setInsert st.api cu}
        else {st with pages := setInsert st.pages cu}
      let st :=
        if (kind = "page".data ∨ kind = "api".data) ∧ ¬ p.path.isEmpty then
          let segs := (splitAll '/' p.path).filter fun s => ¬ s.isEmpty
          match segs.head? with
          | some s0 => {st with directoriesByHost := dirInsert st.directoriesByHost host ('/' :: s0)}
          | none => st
        else st
      return add_discovered cfg ω st cu (some parentCanonical) (parentDepth + 1) kind true

inductive IterOut where
  | crash : IterOut
  | brk : St → IterOut
  | finished : St → IterOut
  | cont : St → IterOut
deriving DecidableEq

/-- The seeded query variants block of `crawl` (lines 432–443): each
`build_query_urls` result is canonicalized and recorded. -/
def seedQueryPhase (cfg : CrawlCfg) (baseUrl : List Char) (st : St) :
    Except Unit St :=
  match cfg.seedQueries with
  | some seeds =>
      if seeds.isEmpty then .ok st
      else
        (build_query_urls baseUrl seeds).foldlM
          (fun st qurl => do
            let cq ← canonical_url qurl (some baseUrl) cfg.removeTracking
            if cq.isEmpty then return st
            return {st with
              queryUrls := setInsert st.queryUrls cq,
              pages := setInsert st.pages cq}) st
  | none => .ok st

/-- Propagation of an uncaught exception out of the loop body. -/
def exceptStep {α : Type} (e : Except Unit α) (f : α → IterOut) : IterOut :=
  match e with
  | .error _ => .crash
  | .ok a => f a

/-- A fetch that raises is swallowed (`continue`); a response is handled. -/
def fetchStep (o : Option Resp) (st : St) (f : Resp → IterOut) : IterOut :=
  match o with
  | none => .cont st
  | some r => f r

/-- The tail of a successful HTML fetch: page bookkeeping, seeded query
variants, inline search targets, then the link loop. -/
def linkPhase (cfg : CrawlCfg) (ω : Oracle) (k : Nat) (url effective : List Char)
    (r : Resp) (st : St) : IterOut :=
  let html := r.body
  let baseUrl := if r.finalUrl.isEmpty then url else r.finalUrl
  let pageUrl := if effective.isEmpty then url else effective
  let st := {st with pages := setInsert st.pages pageUrl}
  let links0 := extract_links html baseUrl
  exceptStep (seedQueryPhase cfg baseUrl st) fun st =>
    let targetLinks :=
      (extract_search_targets html).filterMap fun t =>
        let cand := absolute_url baseUrl t
        if is_http_url cand then some cand else none
    let linkSet := (links0 ++ targetLinks).dedup
    exceptStep (canonical_url baseUrl (some baseUrl) cfg.removeTracking) fun pc0 =>
      let parentCanonical :=
        if pc0.isEmpty then
          (if effective.isEmpty then url else effective)
        else pc0
      let parentDepth :=
        match lookupD st.discovered parentCanonical with
        | some n => n.depth
        | none =>
            match lookupD st.discovered url with
            | some n => n.depth
            | none => 0
      exceptStep ((ω.reorder k linkSet).foldlM
          (processLink cfg ω baseUrl parentCanonical parentDepth) st) fun st =>
        .cont st

/-- Handling of one fetched response: truthiness, post-redirect alias,
content checks, then `linkPhase`. -/
def respPhase (cfg : CrawlCfg) (ω : Oracle) (k : Nat) (url : List Char)
    (r : Resp) (st : St) : IterOut :=
  let rTruthy := r.status < 400
  let effE : Except Unit (List Char) :=
    if rTruthy then
      canonical_url (if r.finalUrl.isEmpty then url else r.finalUrl)
        (some url) cfg.removeTracking
    else .ok url
  exceptStep effE fun effective =>
    let st :=
      if ¬ effective.isEmpty ∧ effective ≠ url ∧
         (lookupD st.discovered effective).isNone then
        let cur := lookupD st.discovered url
        add_discovered cfg ω st effective (cur.bind Node.parent)
          ((cur.map Node.depth).getD 0)
          ((cur.map Node.kind).getD "page".data) false
      else st
    if ¬ rTruthy then .cont st
    else
      let ct := r.contentType
      if ¬ isInfixL "text/html".data (lower ct) ∧
         ¬ isInfixL "<html".data (lower r.body) then .cont st
      else linkPhase cfg ω k url effective r st

/-- One iteration of the `while frontier:` loop of `crawl` (with
`js_config=None`, `headless=False`): budget and client checks, pop, fetch,
then `respPhase`.  `.crash` models an uncaught exception. -/
def crawlIter (cfg : CrawlCfg) (ω : Oracle) (st : St) : IterOut :=
  if st.frontier.isEmpty then .finished st
  else
    let bh := budgetHit cfg ω st
    if bh.1 then .brk bh.2
    else
      let st := bh.2
      if ¬ cfg.hasRequestsLib then .brk {st with stopReason := "missingRequestsLib".data}
      else
        let pm := popMin st.frontier
        let url := pm.1.2
        let st := {st with frontier := pm.2, enqueued := st.enqueued.erase url}
        if st.visited.contains url then .cont st
        else
          let st := {st with visited := setInsert st.visited url,
                             requestsMade := st.requestsMade + 1}
          let k := st.requestsMade - 1
          fetchStep (ω.fetch k) st fun r => respPhase cfg ω k url r st

inductive RunOut where
  | crashed : RunOut
  | fuelOut : St → RunOut
  | done : St → RunOut
deriving DecidableEq

/-- The fuelled `while frontier:` loop. -/
def runLoop (cfg : CrawlCfg) (ω : Oracle) : Nat → St → RunOut
  | 0, st => .fuelOut st
  | n + 1, st =>
      match crawlIter cfg ω st with
      | .crash => .crashed
      | .brk s => .done s
      | .finished s => .done s
      | .cont s => runLoop cfg ω n s

/-- Lines 495–496: assign `frontierEmpty`/`stopped` when no stop reason was
recorded. -/
def finalizeReason (st : St) : St :=
  if st.stopReason.isEmpty then
    {st with stopReason :=
      if st.frontier.isEmpty then "frontierEmpty".data else "stopped".data}
  else st

/-- `stats.patterns_suppressed_total`. -/
def suppressedTotal (st : St) : Nat :=
  (st.suppressedByPattern.map Prod.snd).sum

/-- Whole crawl: seeding, loop, stop-reason finalization (`none` when the
fuel runs out or the Python function would propagate an exception). -/
def crawl (cfg : CrawlCfg) (ω : Oracle) (fuel : Nat) : Option St :=
  match seedPhase cfg ω with
  | .error _ => none
  | .ok st0 =>
      match runLoop cfg ω fuel st0 with
      | .done s => some (finalizeReason s)
      | _ => none

/-- States a crawl passes through: the state after seeding and every state
after a completed loop iteration, including the state at a `break` and at
natural loop exit. -/
inductive Reach (cfg : CrawlCfg) (ω : Oracle) : St → Prop where
  | seed (st0 : St) : seedPhase cfg ω = .ok st0 → Reach cfg ω st0
  | step (st s : St) : Reach cfg ω st → crawlIter cfg ω st = .cont s → Reach cfg ω s
  | brk (st s : St) : Reach cfg ω st → crawlIter cfg ω st = .brk s → Reach cfg ω s
  | fin (st s : St) : Reach cfg ω st → crawlIter cfg ω st = .finished s → Reach cfg ω s

/-- Number of registry nodes whose URL has pattern key `P`. -/
def nodesWithPattern (st : St) (P : List Char) : Nat :=
  (st.discovered.filter fun e => url_pattern_key e.1 = P).length

/-- The wall-clock budget axis is exceeded at the next check. -/
def timeAxis (cfg : CrawlCfg) (ω : Oracle) (st : St) : Bool :=
  (match cfg.maxTime with
   | some t => decide (0 < t)
   | none => false) && decide (cfg.maxTime.getD 0 ≤ ω.elapsed st.timeIdx)

/-- The request-count budget axis is exceeded. -/
def reqAxis (cfg : CrawlCfg) (st : St) : Bool :=
  match cfg.maxRequests with
  | some m => decide (0 < m ∧ m ≤ (st.requestsMade : Int))
  | none => false

/-- The node-count budget axis is exceeded. -/
def nodeAxis (cfg : CrawlCfg) (st : St) : Bool :=
  match cfg.maxNodes with
  | some m => decide (0 < m ∧ m ≤ (st.discovered.length : Int))
  | none => false

/-- Claim C5's description of `inScope` in its own words: lowercase both
arguments; an IPv4-literal or `host:port` apex admits only exact equality;
otherwise equality or a `.apex` suffix; empty inputs are out of scope. -/
def inScopeClaim (host apex : List Char) : Bool :=
  let h := lower host
  let a := lower apex
  if h.isEmpty ∨ a.isEmpty then false
  else if is_ip_hostname a ∨ a.contains ':' then h = a
  else h = a ∨ ('.' :: a).isSuffixOf h

/-- Claim C9's score formula in its own words: +120 whenever the URL's host
is not in `hostSeen` (no nonemptiness proviso), +80 more when that novel
host is an IPv4 literal, +8 for `https`, −(18 + min(60, 10·qn)) for a
positive query-parameter count, −min(30, max(0, len(query)−24)/16),
−min(80, 8·patternSeenCount) — in the same exact ×16 integer scaling as
`priority_score`. -/
def priorityScoreClaim (url : List Char) (hostSeen : List (List Char))
    (patternSeenCount : Nat) : Int :=
  match urlsplitE url [] with
  | .error _ => 0
  | .ok p =>
      let host := lower ((hostnameOf p.netloc).getD [])
      let novel := ¬ hostSeen.contains host
      (if novel then 120 * 16 else 0) +
      (if novel ∧ is_ip_hostname host then 80 * 16 else 0) +
      (if lower p.scheme = "https".data then 8 * 16 else 0) -
      (if 0 < query_param_count url then
        18 * 16 + min (60 * 16) ((query_param_count url : Int) * 10 * 16) else 0) -
      min (30 * 16) (max 0 ((p.query.length : Int) - 24)) -
      min (80 * 16) ((patternSeenCount : Int) * 8 * 16)

/-- The amended C9 formula: as the claim, but the +120/+80 novelty bonuses
require a nonempty host, and an unparseable URL scores 0. -/
def priorityScoreAmended (url : List Char) (hostSeen : List (List Char))
    (patternSeenCount : Nat) : Int :=
  match urlsplitE url [] with
  | .error _ => 0
  | .ok p =>
      let host := lower ((hostnameOf p.netloc).getD [])
      (if ¬ host.isEmpty ∧ ¬ hostSeen.contains host then 120 * 16 else 0) +
      (if ¬ host.isEmpty ∧ is_ip_hostname host ∧ ¬ hostSeen.contains host then 80 * 16 else 0) +
      (if lower p.scheme = "https".data then 8 * 16 else 0) -
      (if 0 < query_param_count url then
        18 * 16 + min (60 * 16) ((query_param_count url : Int) * 10 * 16) else 0) -
      min (30 * 16) (max 0 ((p.query.length : Int) - 24)) -
      min (80 * 16) ((patternSeenCount : Int) * 8 * 16)

/-- Claim C10's description of `is_ip_hostname` in its own words: after
stripping surrounding whitespace and lowercasing, four dot-separated groups
of one to three decimal digits. -/
def ipv4ShapeClaim (s : List Char) : Bool :=
  let t := lower (strip s)
  let groups := splitAll '.' t
  groups.length = 4 ∧
  groups.all fun g => 1 ≤ g.length ∧ g.length ≤ 3 ∧ g.all isDigitChar

/-! Concrete crawl scenarios used by counterexamples and witnesses. -/

/-- A crawl configuration with pattern cap 1 and a generous request budget
(`max_nodes=None`, `max_time_s=None` disable those axes; `classify_url`
unavailable, so every link is kind `page`). -/
def cfgA : CrawlCfg :=
  ⟨["http://h/item/1".data, "http://h/other".data], "h".data,
   some 10, none, none, none, 1, none, true, true, none⟩

/-- The fetch of `http://h/other` redirects to `http://h/item/2` and serves a
page with a single link; every other fetch raises.  With one-element link
sets the Python set-iteration order is unique, so `reorder` is the
identity. -/
def respA : Resp :=
  ⟨"http://h/item/2".data, 200, "text/html".data,
   "<html href=\"http://h/child\">".data⟩

def omA : Oracle :=
  ⟨fun _ => 0, fun k => if k = 1 then some respA else none, fun _ l => l⟩

/-- A configuration whose node budget (1) is already reached after the first
seed. -/
def cfgB : CrawlCfg :=
  ⟨["http://h/item/1".data, "http://h/item/2".data], "h".data,
   some 10, some 1, none, none, 1, none, true, true, none⟩

def omB : Oracle := ⟨fun _ => 0, fun _ => none, fun _ l => l⟩

/-- The state after seeding `http://h/item/1` under `cfgB`. -/
def stB : St :=
  add_discovered cfgB omB initSt "http://h/item/1".data none 0 "page".data true

/-- The result of the second seeding call under `cfgB` (its pattern is at the
cap *and* the node budget is hit). -/
def stB2 : St :=
  add_discovered cfgB omB stB "http://h/item/2".data none 0 "page".data true

/-- A configuration whose three stop axes are all active and tiny. -/
def cfgC : CrawlCfg :=
  ⟨[], "h".data, some 1, some 1, some 1, none, 30, none, true, true, none⟩

/-- A clock far past the budget. -/
def omC : Oracle := ⟨fun _ => 100, fun _ => none, fun _ l => l⟩

/-- A state with requests already made (time and request axes exceeded, node
axis not). -/
def stC : St := {initSt with requestsMade := 5}

/-- C2's bookkeeping invariant: every pattern's registry membership is
counted by `pattern_counts`, and no count exceeds `max_per_pattern`. -/
def patternInv (cfg : CrawlCfg) (st : St) : Prop :=
  ∀ P : List Char, nodesWithPattern st P ≤ getCount st.patternCounts P ∧
    (getCount st.patternCounts P : Int) ≤ cfg.maxPerPattern

/-- `patternInv` lifted to the outcome of one loop iteration. -/
def patternInvOut (cfg : CrawlCfg) : IterOut → Prop
  | .crash => True
  | .brk s => patternInv cfg s
  | .finished s => patternInv cfg s
  | .cont s => patternInv cfg s

/-- A state whose pattern count for `http://h/item/9` already sits at the
cap of `cfgA`. -/
def stW : St :=
  {initSt with patternCounts := [(url_pattern_key "http://h/item/9".data, 1)]}

/-- A plain DNS-label character: lowercase ASCII letter, digit, `.`, `-`
or `_`.  Hosts made of these are untouched by the lowercasing, zone-id,
bracket, userinfo and port parsing of `urllib.parse`. -/
def hostPlainChar (ch : Char) : Bool :=
  ('a' ≤ ch ∧ ch ≤ 'z') ∨ ('0' ≤ ch ∧ ch ≤ '9') ∨ ch = '.' ∨ ch = '-' ∨ ch = '_'

/-- A host string made only of plain DNS-label characters. -/
def hostPlain (h : List Char) : Bool := h.all hostPlainChar

end Recon

/-! ## Theorems -/

namespace Recon

open Py

/-- C1: the claim's literal canonical form sorts `B=2` before `a=1`, but the
code sorts the remaining pairs by (lowercased key, value), which puts `a=1`
first: the canonicalization of
`http://Example.COM:80/a//b/../c?utm_source=x&B=2&a=1#frag` is not
`http://example.com/a/c?B=2&a=1`. -/
theorem C1_counterexample :
    canonical_url "http://Example.COM:80/a//b/../c?utm_source=x&B=2&a=1#frag".data
      none true ≠ .ok "http://example.com/a/c?B=2&a=1".data := by decide

/-- C1 (amended): with tracking removal on and no base, the canonical URL of
`http://Example.COM:80/a//b/../c?utm_source=x&B=2&a=1#frag` is
`http://example.com/a/c?a=1&B=2` (fragment stripped, host lowercased,
default port 80 dropped, slashes collapsed, dot-segments resolved,
`utm_source` removed, remaining pairs sorted by (lowercased key, value)),
and `query_param_count` of that canonical URL is 2. -/
theorem C1_amended :
    canonical_url "http://Example.COM:80/a//b/../c?utm_source=x&B=2&a=1#frag".data
      none true = .ok "http://example.com/a/c?a=1&B=2".data ∧
    query_param_count "http://example.com/a/c?a=1&B=2".data = 2 := by
  constructor
  · decide
  · decide

/-- C7: in the crawl of `cfgA`/`omA`, the fetched page `http://h/other`
redirects to `http://h/item/2`, whose registration as an alias is suppressed
by the pattern cap; the link found on the page is nevertheless registered
with `http://h/item/2` as parent and edge source, so the final registry has
a node whose parent is not a registry key and an edge whose source is not a
registry key — against the claimed closure invariant (and the source's own
"keep parent chain consistent" comment). -/
theorem C7_failing_run :
    (match crawl cfgA omA 10 with
     | some st =>
        (lookupD st.discovered "http://h/item/2".data).isNone &&
        st.edges.contains ("http://h/item/2".data, "http://h/child".data) &&
        decide ((lookupD st.discovered "http://h/child".data).map Node.parent =
          some (some "http://h/item/2".data)) &&
        decide (st.stopReason = "frontierEmpty".data)
     | none => false) = true := by decide

/-- C2 (counterexample): under `cfgB` the second seed `http://h/item/2` is a
new URL whose pattern `h/item/` + `int`-placeholder has already reached the
cap (1), yet the `add_discovered` call performed by the seeding loop leaves
`patterns_suppressed_total` at 0 instead of incrementing it by 1 — the
budget check (`maxNodes` = 1 is already reached) returns first.  The final
conjunct shows this very call is the one the crawl's seeding performs. -/
theorem C2_counterexample :
    (lookupD stB.discovered "http://h/item/2".data).isNone = true ∧
    cfgB.maxPerPattern ≤ (getCount stB.patternCounts (url_pattern_key "http://h/item/2".data) : Int) ∧
    stB2.discovered = stB.discovered ∧
    suppressedTotal stB2 = suppressedTotal stB ∧
    seedPhase cfgB omB = .ok stB2 := by
  refine ⟨by decide, by decide, by decide, by decide, by decide⟩

/-- C5 (counterexample): `_host_in_scope` does not lowercase the apex (an
uppercase apex rejects its own subdomain), and a `host:port`-shaped apex is
not restricted to exact equality (a dotted suffix is accepted) — both
against the claim's description, formalized by `inScopeClaim`. -/
theorem C5_counterexample :
    host_in_scope "api.example.com".data "Example.COM".data = false ∧
    inScopeClaim "api.example.com".data "Example.COM".data = true ∧
    host_in_scope "a.example.com:8080".data "example.com:8080".data = true ∧
    inScopeClaim "a.example.com:8080".data "example.com:8080".data = false := by
  refine ⟨by decide, by decide, by decide, by decide⟩

/-- C5 (amended): `_host_in_scope` lowercases the host only and uses the
apex as given; an empty host is out of scope; for an IPv4-literal apex it
accepts exactly the hosts whose lowercasing equals the apex; for any other
apex (including `host:port` shapes) it accepts exactly the hosts whose
lowercasing equals the apex or ends with `"." + apex`.  In particular, for
apex `example.com` it accepts `api.example.com` (any case) and rejects
`example.com.evil.test` and `otherexample.com`, and for apex `10.0.0.1` it
accepts exactly the hosts whose lowercasing is `10.0.0.1`. -/
theorem C5_amended :
    (∀ apex : List Char, host_in_scope [] apex = false) ∧
    (∀ host apex : List Char, is_ip_hostname apex = true →
      (host_in_scope host apex = true ↔ lower host = apex)) ∧
    (∀ host apex : List Char, is_ip_hostname apex = false →
      (host_in_scope host apex = true ↔
        ¬ (lower host).isEmpty ∧
          (lower host = apex ∨ ('.' :: apex).isSuffixOf (lower host)))) ∧
    host_in_scope "api.example.com".data "example.com".data = true ∧
    host_in_scope "API.example.com".data "example.com".data = true ∧
    host_in_scope "example.com.evil.test".data "example.com".data = false ∧
    host_in_scope "otherexample.com".data "example.com".data = false ∧
    (∀ host : List Char, host_in_scope host "10.0.0.1".data = true ↔
      lower host = "10.0.0.1".data) := by
  have hip : ∀ host apex : List Char, is_ip_hostname apex = true →
      (host_in_scope host apex = true ↔ lower host = apex) := by
    intro host apex hap
    unfold host_in_scope
    have hne : apex ≠ [] := by
      intro he
      rw [he] at hap
      exact absurd hap (by decide)
    by_cases he : (lower host).isEmpty
    · simp only [he, if_true]
      constructor
      · intro h
        exact absurd h (by decide)
      · intro h
        rw [h] at he
        exact absurd (List.isEmpty_iff.mp he) hne
    · simp [he, hap]
  refine ⟨?_, hip, ?_, by decide, by decide, by decide, by decide, ?_⟩
  · intro apex
    simp [host_in_scope, lower]
  · intro host apex hap
    unfold host_in_scope
    by_cases he : (lower host).isEmpty
    · simp [he]
    · simp [he, hap]
  · intro host
    exact hip host "10.0.0.1".data (by decide)

/-- C5 (witness for the amended theorem). -/
theorem C5_amended_witness :
    is_ip_hostname "10.0.0.1".data = true ∧
    (host_in_scope "10.0.0.1".data "10.0.0.1".data = true ↔
      lower "10.0.0.1".data = "10.0.0.1".data) :=
  ⟨by decide, C5_amended.2.1 "10.0.0.1".data "10.0.0.1".data (by decide)⟩

/-- C9 (counterexample): for `http:///x` (empty host) with empty `hostSeen`
and `patternSeenCount` 0, `_priority_score` returns 0, while the claim's
formula awards +120 (the empty host is not in `hostSeen`): the claimed
unconditional novelty bonus does not hold (scores in the exact ×16
scaling). -/
theorem C9_counterexample :
    priority_score "http:///x".data [] 0 = 0 ∧
    priorityScoreClaim "http:///x".data [] 0 = 120 * 16 := by
  refine ⟨by decide, by decide⟩

/-- C9 (amended): the priority score equals the claimed sum with the novelty
bonuses (+120, and the further +80 for an IPv4 literal) restricted to a
nonempty novel host, and 0 for an unparseable URL: the −(18+min(60,10·qn))
query penalty for positive qn, the −min(30, max(0,len(query)−24)/16) soft
penalty (vacuous on empty queries), and the −min(80, 8·patternSeenCount)
repeat penalty are as claimed; a no-query URL with a previously seen host,
scheme http and patternSeenCount 0 scores exactly 0 (all in the exact ×16
scaling). -/
theorem C9_amended :
    ∀ (url : List Char) (hostSeen : List (List Char)) (psc : Nat),
      priority_score url hostSeen psc = priorityScoreAmended url hostSeen psc := by
  intro url hostSeen psc
  unfold priority_score priorityScoreAmended
  cases h : urlsplitE url [] with
  | error e => rfl
  | ok p =>
      simp only []
      have hsoft : (if ¬ p.query.isEmpty then
          -(min (30 * 16) (max 0 ((p.query.length : Int) - 24))) else 0) =
          -(min (30 * 16) (max 0 ((p.query.length : Int) - 24))) := by
        by_cases hq : p.query.isEmpty
        · have hlen : p.query.length = 0 := by
            rw [List.isEmpty_iff.mp hq]
            rfl
          rw [hlen]
          norm_num
        · simp [hq]
      rw [hsoft]
      rcases Nat.eq_zero_or_pos (query_param_count url) with hq0 | hq0
      · simp only [hq0, ne_eq, not_true_eq_false, if_false, lt_self_iff_false]
        ring
      · have h1 : query_param_count url ≠ 0 := by omega
        simp only [h1, hq0, ne_eq, not_false_eq_true, if_true]
        ring

/-- `dropWhile` output never starts with a character satisfying the
predicate. -/
theorem head_dropWhile_false (p : Char → Bool) :
    ∀ (l : List Char) (c : Char), (l.dropWhile p).head? = some c → p c = false := by
  intro l
  induction l with
  | nil =>
      intro c h
      simp at h
  | cons x xs ih =>
      intro c h
      by_cases hx : p x
      · rw [List.dropWhile_cons_of_pos hx] at h
        exact ih c h
      · rw [List.dropWhile_cons_of_neg hx] at h
        simp only [List.head?_cons, Option.some.injEq] at h
        rw [← h]
        simpa using hx

/-- The last character of `strip s` is never whitespace. -/
theorem strip_getLast_not_ws (s : List Char) (c : Char) :
    (strip s).getLast? = some c → isStripWS c = false := by
  intro h
  unfold strip at h
  rw [List.getLast?_reverse] at h
  exact head_dropWhile_false _ _ _ h

/-- `lowerChar` of an uppercase letter is not a newline. -/
theorem lowerChar_upper_ne_newline (c : Char) (h : 'A' ≤ c ∧ c ≤ 'Z') :
    Char.ofNat (c.toNat + 32) ≠ '\n' := by
  intro he
  have hA : 65 ≤ c.toNat := h.1
  have hZ : c.toNat ≤ 90 := h.2
  have h2 : (Char.ofNat (c.toNat + 32)).toNat = c.toNat + 32 := by
    unfold Char.ofNat
    split
    · rfl
    · rename_i hv
      exact absurd (Or.inl (by omega)) hv
  rw [he] at h2
  have hn : ('\n').toNat = 10 := by decide
  omega

/-- `lower (strip s)` never ends in a newline. -/
theorem lower_strip_getLast_ne_newline (s : List Char) :
    (lower (strip s)).getLast? ≠ some '\n' := by
  intro h
  unfold lower at h
  rw [List.getLast?_map] at h
  cases hc : (strip s).getLast? with
  | none =>
      rw [hc] at h
      simp at h
  | some c =>
      rw [hc] at h
      simp at h
      have hws := strip_getLast_not_ws s c hc
      unfold lowerChar at h
      by_cases hif : 'A' ≤ c ∧ c ≤ 'Z'
      · rw [if_pos hif] at h
        exact lowerChar_upper_ne_newline c hif h
      · rw [if_neg hif] at h
        rw [h] at hws
        exact absurd hws (by decide)

/-- C10: `is_ip_hostname` returns true for exactly the strings that, after
stripping surrounding whitespace and lowercasing, consist of four
dot-separated groups of one to three decimal digits — no range check, so
`999.999.999.999` is treated as an IPv4 literal — and false for every other
string, including the empty string (the `$` anchor's allowance for a final
newline is dead because stripping removes it). -/
theorem C10_is_ip_hostname_shape :
    (∀ s : List Char, is_ip_hostname s = ipv4ShapeClaim s) ∧
    is_ip_hostname "999.999.999.999".data = true ∧
    is_ip_hostname [] = false := by
  refine ⟨?_, by decide, by decide⟩
  intro s
  unfold is_ip_hostname ipv4ShapeClaim
  by_cases hs : s.isEmpty
  · rw [if_pos hs]
    rw [List.isEmpty_iff.mp hs]
    decide
  · rw [if_neg hs]
    have hnl := lower_strip_getLast_ne_newline s
    have hma : matchEndAnchored ipv4Core (lower (strip s)) = ipv4Core (lower (strip s)) := by
      unfold matchEndAnchored
      simp [hnl]
    rw [hma]
    unfold ipv4Core
    rw [decide_eq_decide]
    have hgrp : ∀ g : List Char,
        ((¬ g.isEmpty = true ∧ g.length ≤ 3 ∧ g.all isDigitChar = true) ↔
         (1 ≤ g.length ∧ g.length ≤ 3 ∧ g.all isDigitChar = true)) := by
      intro g
      cases g with
      | nil => simp
      | cons x xs => simp
    constructor
    · rintro ⟨h4, hall⟩
      refine ⟨h4, ?_⟩
      rw [List.all_eq_true] at hall ⊢
      intro g hg
      have hh := hall g hg
      rw [decide_eq_true_eq] at hh ⊢
      exact (hgrp g).mp hh
    · rintro ⟨h4, hall⟩
      refine ⟨h4, ?_⟩
      rw [List.all_eq_true] at hall ⊢
      intro g hg
      have hh := hall g hg
      rw [decide_eq_true_eq] at hh ⊢
      exact (hgrp g).mpr hh

/-- C8: registration is first-write-wins: a call of `add_discovered` whose
child URL is already a registry key returns the state unchanged — registry,
edges, pattern counts, suppression counters, host-seen set, frontier (and
every other component) are untouched, so a node's recorded depth, parent,
score and kind remain those of its first discovery. -/
theorem C8_first_write_wins (cfg : CrawlCfg) (ω : Oracle) (st : St)
    (child : List Char) (parentUrl : Option (List Char)) (depth : Nat)
    (kind : List Char) (fromFrontier : Bool)
    (h : (lookupD st.discovered child).isSome = true) :
    add_discovered cfg ω st child parentUrl depth kind fromFrontier = st := by
  unfold add_discovered
  by_cases hc : child.isEmpty
  · rw [if_pos hc]
  · rw [if_neg hc, if_pos h]

/-- C8 (witness). -/
theorem C8_first_write_wins_witness :
    (lookupD stB.discovered "http://h/item/1".data).isSome = true ∧
    add_discovered cfgB omB stB "http://h/item/1".data
      (some "http://h/x".data) 5 "api".data true = stB :=
  ⟨by decide,
   C8_first_write_wins cfgB omB stB "http://h/item/1".data
     (some "http://h/x".data) 5 "api".data true (by decide)⟩

/-- C6: a `budget_hit` check reports a stop reason exactly when one of the
three axes is exceeded, and the reported reason is the first exceeded axis
in the fixed precedence order `maxTime`, `maxRequests`, `maxNodes` (so when
several axes are exceeded simultaneously the earlier one wins); and when the
loop ends with an empty frontier and no stop reason set, the finalization
step reports `frontierEmpty`. -/
theorem C6_stop_reason_precedence :
    (∀ (cfg : CrawlCfg) (ω : Oracle) (st : St),
      (budgetHit cfg ω st).1 = (timeAxis cfg ω st || reqAxis cfg st || nodeAxis cfg st) ∧
      ((budgetHit cfg ω st).1 = true →
        (budgetHit cfg ω st).2.stopReason =
          (if timeAxis cfg ω st then "maxTime".data
           else if reqAxis cfg st then "maxRequests".data
           else "maxNodes".data))) ∧
    (∀ (cfg : CrawlCfg) (ω : Oracle) (fuel : Nat) (st0 s : St),
      runLoop cfg ω fuel st0 = .done s → s.frontier = [] → s.stopReason = [] →
      (finalizeReason s).stopReason = "frontierEmpty".data) := by
  constructor
  · intro cfg ω st
    unfold budgetHit timeAxis reqAxis nodeAxis
    constructor
    · cases cfg.maxTime <;> cases cfg.maxRequests <;> cases cfg.maxNodes <;>
        simp only [] <;> split_ifs <;> simp_all
    · cases cfg.maxTime <;> cases cfg.maxRequests <;> cases cfg.maxNodes <;>
        simp only [] <;> split_ifs <;> simp_all
  · intro cfg ω fuel st0 s hrun hf hr
    unfold finalizeReason
    rw [hr]
    simp [hf]

/-- `budget_hit` only writes `stop_reason` and consumes a clock sample. -/
theorem budgetHit_frame (cfg : CrawlCfg) (ω : Oracle) (st : St) :
    (budgetHit cfg ω st).2.discovered = st.discovered ∧
    (budgetHit cfg ω st).2.patternCounts = st.patternCounts ∧
    (budgetHit cfg ω st).2.suppressedByPattern = st.suppressedByPattern ∧
    (budgetHit cfg ω st).2.edges = st.edges ∧
    (budgetHit cfg ω st).2.frontier = st.frontier ∧
    (budgetHit cfg ω st).2.visited = st.visited ∧
    (budgetHit cfg ω st).2.enqueued = st.enqueued ∧
    (budgetHit cfg ω st).2.hostSeen = st.hostSeen ∧
    (budgetHit cfg ω st).2.requestsMade = st.requestsMade := by
  unfold budgetHit
  simp only []
  split_ifs <;> simp

theorem getCount_bump_self (m : List (List Char × Nat)) (kk : List Char) :
    getCount (bump m kk) kk = getCount m kk + 1 := by
  induction m with
  | nil => simp [bump, getCount, lookupD]
  | cons e rest ih =>
      by_cases he : e.1 = kk
      · simp [bump, he, getCount, lookupD]
      · simp only [bump, if_neg he]
        simp only [getCount, lookupD] at ih ⊢
        rw [List.find?_cons_of_neg, List.find?_cons_of_neg]
        · exact ih
        · simp [he]
        · simp [he]

theorem getCount_bump_other (m : List (List Char × Nat)) (kk P : List Char)
    (hne : P ≠ kk) : getCount (bump m kk) P = getCount m P := by
  induction m with
  | nil =>
      simp only [bump, getCount, lookupD]
      rw [List.find?_cons_of_neg]
      simp only [decide_eq_true_eq]
      intro h
      exact hne h.symm
  | cons e rest ih =>
      by_cases he : e.1 = kk
      · simp only [bump, if_pos he]
        simp only [getCount, lookupD]
        by_cases hep : e.1 = P
        · exact absurd (hep.symm.trans he) hne
        · rw [List.find?_cons_of_neg, List.find?_cons_of_neg]
          · simp [hep]
          · simp [hep]
      · simp only [bump, if_neg he]
        simp only [getCount, lookupD] at ih ⊢
        by_cases hep : e.1 = P
        · rw [List.find?_cons_of_pos, List.find?_cons_of_pos] <;> simp [hep]
        · rw [List.find?_cons_of_neg, List.find?_cons_of_neg]
          · exact ih
          · simp [hep]
          · simp [hep]

theorem sum_map_bump (m : List (List Char × Nat)) (kk : List Char) :
    ((bump m kk).map Prod.snd).sum = ((m.map Prod.snd).sum) + 1 := by
  induction m with
  | nil => simp [bump]
  | cons e rest ih =>
      by_cases he : e.1 = kk
      · simp [bump, he]
        omega
      · simp [bump, he, ih]
        omega

/-- A nonempty URL has a nonempty pattern key. -/
theorem url_pattern_key_ne_nil (child : List Char) (h : ¬ child.isEmpty = true) :
    ¬ (url_pattern_key child).isEmpty = true := by
  unfold url_pattern_key
  cases hs : urlsplitE child [] with
  | error e => exact h
  | ok p =>
      simp only []
      by_cases hh : (lower ((hostnameOf p.netloc).getD [])).isEmpty
      · rw [if_pos hh]
        exact h
      · rw [if_neg hh]
        split_ifs <;>
          simp_all [List.isEmpty_iff, List.append_eq_nil]

theorem nodesWithPattern_append (st : List (List Char × Node)) (x : List Char × Node)
    (P : List Char) :
    ((st ++ [x]).filter fun e => url_pattern_key e.1 = P).length =
      (st.filter fun e => url_pattern_key e.1 = P).length +
        (if url_pattern_key x.1 = P then 1 else 0) := by
  rw [List.filter_append]
  simp only [List.length_append]
  by_cases hx : url_pattern_key x.1 = P
  · simp [hx]
  · simp [hx]

/-- Case analysis of `add_discovered` on the registry, pattern-count and
suppression components: either a fresh node keyed by the child is appended
(with the pattern count bumped when the cap machinery is active, which only
happens below the cap), or the registry and counts are unchanged and the
suppression table is either unchanged or bumped at the child's pattern. -/
theorem add_discovered_cases (cfg : CrawlCfg) (ω : Oracle) (st : St)
    (child : List Char) (p : Option (List Char)) (d : Nat) (k : List Char)
    (ff : Bool) :
    ((∀ P, nodesWithPattern (add_discovered cfg ω st child p d k ff) P =
        nodesWithPattern st P + (if url_pattern_key child = P then 1 else 0)) ∧
     (add_discovered cfg ω st child p d k ff).patternCounts =
       (if (cfg.maxPerPattern ≠ 0 && ¬ (url_pattern_key child).isEmpty) = true then
         bump st.patternCounts (url_pattern_key child) else st.patternCounts) ∧
     (add_discovered cfg ω st child p d k ff).suppressedByPattern =
       st.suppressedByPattern ∧
     ¬ child.isEmpty = true ∧ lookupD st.discovered child = none ∧
     ((cfg.maxPerPattern ≠ 0 && ¬ (url_pattern_key child).isEmpty) = true →
       ¬ cfg.maxPerPattern ≤ (getCount st.patternCounts (url_pattern_key child) : Int))) ∨
    ((add_discovered cfg ω st child p d k ff).discovered = st.discovered ∧
     (add_discovered cfg ω st child p d k ff).patternCounts = st.patternCounts ∧
     ((add_discovered cfg ω st child p d k ff).suppressedByPattern =
        st.suppressedByPattern ∨
      (add_discovered cfg ω st child p d k ff).suppressedByPattern =
        bump st.suppressedByPattern (url_pattern_key child))) := by
  unfold add_discovered
  by_cases h1 : child.isEmpty
  · rw [if_pos h1]
    right
    exact ⟨rfl, rfl, Or.inl rfl⟩
  rw [if_neg h1]
  by_cases h2 : (lookupD st.discovered child).isSome
  · rw [if_pos h2]
    right
    exact ⟨rfl, rfl, Or.inl rfl⟩
  rw [if_neg h2]
  have h2' : lookupD st.discovered child = none := by
    cases hv : lookupD st.discovered child
    · rfl
    · rw [hv] at h2
      exact absurd rfl h2
  have hfr := budgetHit_frame cfg ω st
  rcases hbh : budgetHit cfg ω st with ⟨b1, st2⟩
  rw [hbh] at hfr
  dsimp only at hfr
  obtain ⟨hd2, hp2, hs2, -⟩ := hfr
  dsimp only
  by_cases h3 : b1 = true
  · rw [if_pos h3]
    right
    exact ⟨hd2, hp2, Or.inl hs2⟩
  rw [if_neg h3]
  by_cases h4 : ((cfg.maxPerPattern ≠ 0 && ¬ (url_pattern_key child).isEmpty) = true) ∧
      cfg.maxPerPattern ≤ (getCount st2.patternCounts (url_pattern_key child) : Int)
  · rw [if_pos h4]
    right
    refine ⟨hd2, hp2, Or.inr ?_⟩
    dsimp only
    rw [hs2]
  · rw [if_neg h4]
    left
    refine ⟨?_, ?_, ?_, h1, h2', ?_⟩
    · intro P
      unfold nodesWithPattern
      cases p <;>
        simp only [apply_ite St.discovered, ite_self, List.filter_append,
          List.length_append, hd2] <;>
      · by_cases hx : url_pattern_key child = P
        · simp [hx]
        · simp [hx]
    · cases p <;>
        simp only [apply_ite St.patternCounts, ite_self, hp2]
    · cases p <;>
        simp only [apply_ite St.suppressedByPattern, ite_self, hs2]
    · intro hca hle
      apply h4
      refine ⟨hca, ?_⟩
      rw [hp2]
      exact hle

/-- The pattern invariant only reads `discovered` and `patternCounts`. -/
theorem patternInv_of_eq {cfg : CrawlCfg} {s t : St}
    (hd : t.discovered = s.discovered) (hp : t.patternCounts = s.patternCounts)
    (h : patternInv cfg s) : patternInv cfg t := by
  intro P
  unfold nodesWithPattern
  rw [hd, hp]
  exact h P

/-- `add_discovered` preserves the pattern invariant when the cap is
positive. -/
theorem add_discovered_inv (cfg : CrawlCfg) (ω : Oracle) (st : St)
    (child : List Char) (p : Option (List Char)) (d : Nat) (k : List Char)
    (ff : Bool) (hcap : 0 < cfg.maxPerPattern) (h : patternInv cfg st) :
    patternInv cfg (add_discovered cfg ω st child p d k ff) := by
  rcases add_discovered_cases cfg ω st child p d k ff with
    ⟨hn, hp, _hs, h1, _h2, himp⟩ | ⟨hd, hp, _⟩
  · have hpk := url_pattern_key_ne_nil child h1
    have hca : (cfg.maxPerPattern ≠ 0 && ¬ (url_pattern_key child).isEmpty) = true := by
      simp only [Bool.and_eq_true, decide_eq_true_eq]
      exact ⟨by omega, hpk⟩
    have hlt := himp hca
    rw [if_pos hca] at hp
    intro P
    have hIH := h P
    by_cases hx : url_pattern_key child = P
    · subst hx
      refine ⟨?_, ?_⟩
      · rw [hn _, hp, getCount_bump_self, if_pos rfl]
        omega
      · rw [hp, getCount_bump_self]
        push_cast
        omega
    · have hx' : P ≠ url_pattern_key child := fun hh => hx hh.symm
      refine ⟨?_, ?_⟩
      · rw [hn _, hp, getCount_bump_other _ _ _ hx', if_neg hx]
        omega
      · rw [hp, getCount_bump_other _ _ _ hx']
        exact hIH.2
  · exact patternInv_of_eq hd hp h

/-- An `Except`-valued fold preserves any invariant its body preserves. -/
theorem foldlM_except_inv {α : Type} (f : St → α → Except Unit St)
    (Q : St → Prop)
    (hf : ∀ s a s', Q s → f s a = .ok s' → Q s') :
    ∀ (l : List α) (s s' : St), Q s → l.foldlM f s = .ok s' → Q s' := by
  intro l
  induction l with
  | nil =>
      intro s s' hq h
      rw [List.foldlM_nil] at h
      injection h with h
      exact h ▸ hq
  | cons a t ih =>
      intro s s' hq h
      rw [List.foldlM_cons] at h
      cases hfa : f s a with
      | error e =>
          rw [hfa] at h
          simp only [bind, Except.bind] at h
          exact Except.noConfusion h
      | ok s1 =>
          rw [hfa] at h
          simp only [bind, Except.bind] at h
          exact ih s1 s' (hf s a s1 hq hfa) h

/-- The per-link body of the link loop preserves the pattern invariant. -/
theorem processLink_inv (cfg : CrawlCfg) (ω : Oracle) (b pc : List Char)
    (pd : Nat) (hcap : 0 < cfg.maxPerPattern) (st : St) (link : List Char)
    (st' : St) (hq : patternInv cfg st)
    (h : processLink cfg ω b pc pd st link = .ok st') : patternInv cfg st' := by
  unfold processLink at h
  cases hc : canonical_url link (some b) cfg.removeTracking with
  | error e =>
      rw [hc] at h
      simp only [bind, Except.bind] at h
      exact Except.noConfusion h
  | ok cu =>
      rw [hc] at h
      simp only [bind, Except.bind, pure, Except.pure] at h
      by_cases h1 : cu.isEmpty
      · rw [if_pos h1] at h
        injection h with h
        exact h ▸ hq
      rw [if_neg h1] at h
      cases hs : urlsplitE cu [] with
      | error e =>
          rw [hs] at h
          injection h with h
          exact h ▸ hq
      | ok p =>
          rw [hs] at h
          simp only [] at h
          split_ifs at h <;>
            first
              | (injection h with h; exact h ▸ hq)
              | (injection h with h
                 exact h ▸ add_discovered_inv _ _ _ _ _ _ _ _ hcap
                   (patternInv_of_eq rfl rfl hq))
              | (split at h <;>
                  (injection h with h
                   exact h ▸ add_discovered_inv _ _ _ _ _ _ _ _ hcap
                     (patternInv_of_eq rfl rfl hq)))

/-- Seeding establishes the pattern invariant. -/
theorem seedPhase_inv (cfg : CrawlCfg) (ω : Oracle)
    (hcap : 0 < cfg.maxPerPattern) (st0 : St)
    (h : seedPhase cfg ω = .ok st0) : patternInv cfg st0 := by
  unfold seedPhase at h
  refine foldlM_except_inv _ (patternInv cfg) ?_ _ _ _ ?_ h
  · intro s a s' hqs hf
    simp only [] at hf
    cases hc : canonical_url a (some a) cfg.removeTracking with
    | error e =>
        rw [hc] at hf
        simp only [bind, Except.bind] at hf
        exact Except.noConfusion hf
    | ok cu =>
        rw [hc] at hf
        simp only [bind, Except.bind, pure, Except.pure] at hf
        split_ifs at hf <;>
          first
            | (injection hf with hf; exact hf ▸ hqs)
            | (injection hf with hf
               exact hf ▸ add_discovered_inv _ _ _ _ _ _ _ _ hcap hqs)
  · intro P
    refine ⟨le_refl 0, ?_⟩
    have h0 : getCount initSt.patternCounts P = 0 := rfl
    rw [h0]
    omega

/-- `exceptStep` preserves the lifted invariant. -/
theorem exceptStep_inv {α : Type} (cfg : CrawlCfg) (e : Except Unit α)
    (f : α → IterOut) (h : ∀ a, e = .ok a → patternInvOut cfg (f a)) :
    patternInvOut cfg (exceptStep e f) := by
  cases e with
  | error e => trivial
  | ok a => exact h a rfl

/-- `fetchStep` preserves the lifted invariant. -/
theorem fetchStep_inv (cfg : CrawlCfg) (o : Option Resp) (st : St)
    (f : Resp → IterOut) (h1 : patternInv cfg st)
    (h2 : ∀ r, patternInvOut cfg (f r)) :
    patternInvOut cfg (fetchStep o st f) := by
  cases o with
  | none => exact h1
  | some r => exact h2 r

/-- The seeded-query block preserves the pattern invariant. -/
theorem seedQueryPhase_inv (cfg : CrawlCfg) (b : List Char) (s s' : St)
    (hq : patternInv cfg s) (h : seedQueryPhase cfg b s = .ok s') :
    patternInv cfg s' := by
  unfold seedQueryPhase at h
  split at h
  · split_ifs at h
    · injection h with h
      exact h ▸ hq
    · refine foldlM_except_inv _ (patternInv cfg) ?_ _ _ _ hq h
      intro s a s' hqs hf
      simp only [] at hf
      cases hc : canonical_url a (some b) cfg.removeTracking with
      | error e =>
          rw [hc] at hf
          simp only [bind, Except.bind] at hf
          exact Except.noConfusion hf
      | ok cq =>
          rw [hc] at hf
          simp only [bind, Except.bind, pure, Except.pure] at hf
          split_ifs at hf <;>
            (injection hf with hf; exact hf ▸ patternInv_of_eq rfl rfl hqs)
  · injection h with h
    exact h ▸ hq

/-- The link loop preserves the pattern invariant, whichever way it exits. -/
theorem linkPhase_inv (cfg : CrawlCfg) (ω : Oracle) (k : Nat)
    (url effective : List Char) (r : Resp) (st : St)
    (hcap : 0 < cfg.maxPerPattern) (hq : patternInv cfg st) :
    patternInvOut cfg (linkPhase cfg ω k url effective r st) := by
  unfold linkPhase
  simp only []
  refine exceptStep_inv cfg _ _ ?_
  intro s6 h6
  have hq6 : patternInv cfg s6 := by
    refine seedQueryPhase_inv _ _ _ _ ?_ h6
    exact patternInv_of_eq rfl rfl hq
  refine exceptStep_inv cfg _ _ ?_
  intro pc0 _
  refine exceptStep_inv cfg _ _ ?_
  intro s7 h7
  exact foldlM_except_inv _ (patternInv cfg)
    (fun a b c hx hy => processLink_inv _ _ _ _ _ hcap _ _ _ hx hy) _ _ _ hq6 h7

/-- Response handling preserves the pattern invariant. -/
theorem respPhase_inv (cfg : CrawlCfg) (ω : Oracle) (k : Nat) (url : List Char)
    (r : Resp) (st : St) (hcap : 0 < cfg.maxPerPattern)
    (hq : patternInv cfg st) :
    patternInvOut cfg (respPhase cfg ω k url r st) := by
  unfold respPhase
  simp only []
  refine exceptStep_inv cfg _ _ ?_
  intro effective _
  split_ifs <;>
    first
      | exact hq
      | exact add_discovered_inv _ _ _ _ _ _ _ _ hcap hq
      | exact linkPhase_inv _ _ _ _ _ _ _ hcap hq
      | exact linkPhase_inv _ _ _ _ _ _ _ hcap
          (add_discovered_inv _ _ _ _ _ _ _ _ hcap hq)

/-- One loop iteration preserves the pattern invariant, whichever way it
exits. -/
theorem crawlIter_inv (cfg : CrawlCfg) (ω : Oracle) (st : St)
    (hcap : 0 < cfg.maxPerPattern) (hq : patternInv cfg st) :
    patternInvOut cfg (crawlIter cfg ω st) := by
  have hfr := budgetHit_frame cfg ω st
  unfold crawlIter
  rcases hbh : budgetHit cfg ω st with ⟨b1, s1⟩
  rw [hbh] at hfr
  dsimp only at hfr
  have hb2 : patternInv cfg s1 := patternInv_of_eq hfr.1 hfr.2.1 hq
  simp only []
  split_ifs <;>
    first
      | exact hq
      | exact hb2
      | exact patternInv_of_eq rfl rfl hb2
      | (refine fetchStep_inv cfg _ _ _ (patternInv_of_eq rfl rfl hb2) ?_
         intro r
         exact respPhase_inv _ _ _ _ _ _ hcap (patternInv_of_eq rfl rfl hb2))

/-- Every reachable crawl state satisfies the pattern invariant. -/
theorem reach_patternInv (cfg : CrawlCfg) (ω : Oracle) (st : St)
    (hcap : 0 < cfg.maxPerPattern) (h : Reach cfg ω st) : patternInv cfg st := by
  induction h with
  | seed st0 h0 => exact seedPhase_inv cfg ω hcap st0 h0
  | step s1 s2 hr hc ih =>
      have hout := crawlIter_inv cfg ω s1 hcap ih
      rw [hc] at hout
      exact hout
  | brk s1 s2 hr hc ih =>
      have hout := crawlIter_inv cfg ω s1 hcap ih
      rw [hc] at hout
      exact hout
  | fin s1 s2 hr hc ih =>
      have hout := crawlIter_inv cfg ω s1 hcap ih
      rw [hc] at hout
      exact hout

/-- C2 (amended): when `max_per_pattern` is positive, every reachable crawl
state keeps at most `max_per_pattern` registry nodes per pattern key; and a
call to `add_discovered` for a new nonempty URL whose pattern count has
already reached the cap, made when no budget axis is hit, leaves the
registry, pattern counts and frontier unchanged and increments
`patterns_suppressed_total` by exactly one. -/
theorem C2_amended (cfg : CrawlCfg) (ω : Oracle)
    (hcap : 0 < cfg.maxPerPattern) :
    (∀ st, Reach cfg ω st →
      ∀ P, (nodesWithPattern st P : Int) ≤ cfg.maxPerPattern) ∧
    (∀ (st : St) (child : List Char) (p : Option (List Char)) (d : Nat)
        (kk : List Char) (ff : Bool),
      ¬ child.isEmpty = true →
      lookupD st.discovered child = none →
      (budgetHit cfg ω st).1 = false →
      cfg.maxPerPattern ≤ (getCount st.patternCounts (url_pattern_key child) : Int) →
      (add_discovered cfg ω st child p d kk ff).discovered = st.discovered ∧
      (add_discovered cfg ω st child p d kk ff).patternCounts = st.patternCounts ∧
      (add_discovered cfg ω st child p d kk ff).frontier = st.frontier ∧
      suppressedTotal (add_discovered cfg ω st child p d kk ff) =
        suppressedTotal st + 1) := by
  constructor
  · intro st hreach P
    have h := reach_patternInv cfg ω st hcap hreach P
    have h1 := h.1
    have h2 := h.2
    omega
  · intro st child p d kk ff h1 h2 h3 h4
    have hfr := budgetHit_frame cfg ω st
    have hpk := url_pattern_key_ne_nil child h1
    unfold add_discovered
    rw [if_neg h1]
    have h2s : ¬ (lookupD st.discovered child).isSome = true := by
      rw [h2]
      simp
    rw [if_neg h2s]
    simp only []
    have h3n : ¬ (budgetHit cfg ω st).1 = true := by
      rw [h3]
      simp
    rw [if_neg h3n]
    have hcond : (cfg.maxPerPattern ≠ 0 && ¬ (url_pattern_key child).isEmpty) = true ∧
        cfg.maxPerPattern ≤
          (getCount (budgetHit cfg ω st).2.patternCounts (url_pattern_key child) : Int) := by
      constructor
      · simp only [Bool.and_eq_true, decide_eq_true_eq]
        exact ⟨by omega, hpk⟩
      · rw [hfr.2.1]
        exact h4
    rw [if_pos hcond]
    refine ⟨hfr.1, hfr.2.1, hfr.2.2.2.2.1, ?_⟩
    simp only [suppressedTotal]
    rw [sum_map_bump, hfr.2.2.1]

/-- C2 (witness): under `cfgA` (cap 1, request budget not hit), adding
`http://h/item/9` to a state whose `item/{int}` pattern count is already 1
registers nothing and bumps the suppression total by one. -/
theorem C2_amended_witness :
    (add_discovered cfgA omA stW "http://h/item/9".data none 1 "page".data true).discovered =
        stW.discovered ∧
    (add_discovered cfgA omA stW "http://h/item/9".data none 1 "page".data true).patternCounts =
        stW.patternCounts ∧
    (add_discovered cfgA omA stW "http://h/item/9".data none 1 "page".data true).frontier =
        stW.frontier ∧
    suppressedTotal (add_discovered cfgA omA stW "http://h/item/9".data none 1 "page".data true) =
      suppressedTotal stW + 1 :=
  (C2_amended cfgA omA (by decide)).2 stW "http://h/item/9".data none 1 "page".data true
    (by decide) rfl rfl (by decide)

end Recon

namespace Recon

open Py

/-- C6 (witness): with the wall clock past a 1-second budget, the request
budget (1) exceeded by 5 requests and the node budget (1) not yet reached,
the reported reason is `maxTime`; and a crawl loop that ends on an empty
frontier with no stop reason reports `frontierEmpty`. -/
theorem C6_stop_reason_precedence_witness :
    (budgetHit cfgC omC stC).2.stopReason = "maxTime".data ∧
    (finalizeReason initSt).stopReason = "frontierEmpty".data := by
  constructor
  · have h := (C6_stop_reason_precedence.1 cfgC omC stC).2 (by decide)
    rw [h]
    decide
  · have h := C6_stop_reason_precedence.2 cfgC omC 1 initSt initSt (by decide)
      (by decide) (by decide)
    exact h

end Recon

namespace Py

/-- `splitFirst` finds nothing when the separator does not occur. -/
theorem splitFirst_eq_none (sep : Char) (s : List Char)
    (h : ∀ a ∈ s, a ≠ sep) : splitFirst sep s = none := by
  induction s with
  | nil => rfl
  | cons c rest ih =>
      unfold splitFirst
      rw [if_neg (h c (List.mem_cons_self c rest)),
          ih (fun a ha => h a (List.mem_cons_of_mem c ha))]

/-- `splitFirst` splits at the first occurrence of the separator. -/
theorem splitFirst_append_cons (sep : Char) (a b : List Char)
    (h : ∀ x ∈ a, x ≠ sep) :
    splitFirst sep (a ++ sep :: b) = some (a, b) := by
  induction a with
  | nil => simp [splitFirst]
  | cons c rest ih =>
      rw [List.cons_append]
      unfold splitFirst
      rw [if_neg (h c (List.mem_cons_self c rest)),
          ih (fun x hx => h x (List.mem_cons_of_mem c hx))]

/-- `takeWhile` passes over a prefix it accepts entirely. -/
theorem tw_append_all (p : Char → Bool) (a b : List Char)
    (h : ∀ x ∈ a, p x = true) :
    (a ++ b).takeWhile p = a ++ b.takeWhile p := by
  induction a with
  | nil => rfl
  | cons c rest ih =>
      rw [List.cons_append, List.takeWhile_cons, h c (List.mem_cons_self c rest),
          ih (fun x hx => h x (List.mem_cons_of_mem c hx))]
      rfl

/-- `dropWhile` drops a prefix it accepts entirely. -/
theorem dw_append_all (p : Char → Bool) (a b : List Char)
    (h : ∀ x ∈ a, p x = true) :
    (a ++ b).dropWhile p = b.dropWhile p := by
  induction a with
  | nil => rfl
  | cons c rest ih =>
      rw [List.cons_append, List.dropWhile_cons, h c (List.mem_cons_self c rest),
          ih (fun x hx => h x (List.mem_cons_of_mem c hx)), if_pos rfl]

/-- `dropWhile` is the identity on a list with no accepted character. -/
theorem dropWhile_eq_self_of_all (p : Char → Bool) (s : List Char)
    (h : ∀ x ∈ s, p x = false) : s.dropWhile p = s := by
  cases s with
  | nil => rfl
  | cons c rest => simp [List.dropWhile_cons, h c (List.mem_cons_self c rest)]

theorem findIdx?_append_cons (c : Char) (b : List Char) :
    ∀ (a : List Char), (∀ x ∈ a, x ≠ c) → ∀ i : Nat,
      List.findIdx? (fun x => x == c) (a ++ c :: b) i = some (i + a.length) := by
  intro a
  induction a with
  | nil =>
      intro h i
      simp [List.findIdx?]
  | cons d rest ih =>
      intro h i
      rw [List.cons_append]
      simp only [List.findIdx?]
      have hd : (d == c) = false := by
        simp only [beq_eq_false_iff_ne]
        exact h d (List.mem_cons_self d rest)
      simp only [hd, Bool.false_eq_true, if_false]
      rw [ih (fun x hx => h x (List.mem_cons_of_mem d hx)) (i + 1)]
      congr 1
      simp
      omega

/-- `str.find` locates the first occurrence of a character. -/
theorem findChar_append_cons (c : Char) (a b : List Char)
    (h : ∀ x ∈ a, x ≠ c) : findChar c (a ++ c :: b) = some a.length := by
  simp only [findChar, List.indexOf?]
  have := findIdx?_append_cons c b a h 0
  simpa using this

/-- `strip` is the identity on a string with no strippable character. -/
theorem strip_eq_self (s : List Char) (h : ∀ x ∈ s, isStripWS x = false) :
    strip s = s := by
  unfold strip
  rw [dropWhile_eq_self_of_all _ s h,
      dropWhile_eq_self_of_all _ s.reverse (fun x hx => h x (List.mem_reverse.mp hx)),
      List.reverse_reverse]

/-- The fragment-removal regex is the identity on a `#`-free string. -/
theorem removeFragment_id (s : List Char) (h : ∀ x ∈ s, x ≠ '#') :
    removeFragment s = s := by
  induction s with
  | nil => rfl
  | cons c rest ih =>
      unfold removeFragment
      rw [if_neg, ih (fun x hx => h x (List.mem_cons_of_mem c hx))]
      intro hc
      exact h c (List.mem_cons_self c rest) hc.1

/-- `removeUnsafe` is the identity on a string without `\t`, `\r`, `\n`. -/
theorem removeUnsafe_id (s : List Char)
    (h : ∀ x ∈ s, ¬ (x = '\t' ∨ x = '\r' ∨ x = '\n')) : removeUnsafe s = s := by
  unfold removeUnsafe
  rw [List.filter_eq_self.mpr]
  intro a ha
  simp only [decide_eq_true_eq]
  exact h a ha

/-- `rstripSet` is the identity when the last character is not stripped. -/
theorem rstripSet_eq_self (cs s : List Char)
    (h : ∀ x, s.getLast? = some x → cs.contains x = false) :
    rstripSet cs s = s := by
  unfold rstripSet
  cases hs : s.reverse with
  | nil =>
      have : s = [] := by simpa using congrArg List.reverse hs
      simp [this]
  | cons c rest =>
      have hlast : s.getLast? = some c := by
        rw [← List.head?_reverse, hs]
        rfl
      rw [List.dropWhile_cons, h c hlast]
      simp only [Bool.false_eq_true, if_false]
      rw [← hs, List.reverse_reverse]

/-- Stripping trailing dots leaves no trailing dot. -/
theorem rstripSet_dot_getLast (s : List Char) (x : Char)
    (h : (rstripSet ['.'] s).getLast? = some x) : x ≠ '.' := by
  unfold rstripSet at h
  rw [List.getLast?_reverse] at h
  have := Recon.head_dropWhile_false _ _ _ h
  intro hx
  rw [hx] at this
  simp at this

/-- `lowerChar` fixes everything but uppercase ASCII letters. -/
theorem lowerChar_fix (c : Char) (h : ¬ ('A' ≤ c ∧ c ≤ 'Z')) :
    lowerChar c = c := by
  unfold lowerChar
  rw [if_neg h]

/-- `lower` fixes a string with no uppercase ASCII letter. -/
theorem lower_eq_self (s : List Char) (h : ∀ x ∈ s, ¬ ('A' ≤ x ∧ x ≤ 'Z')) :
    lower s = s := by
  unfold lower
  rw [List.map_congr_left fun x hx => lowerChar_fix x (h x hx)]
  exact List.map_id s

end Py

namespace Py

theorem char_toNat_lt (c : Char) : c.toNat < 1114112 := by
  rcases c.valid with h | h
  · exact Nat.lt_trans h (by norm_num)
  · exact h.2

theorem char_ne_of_toNat {a b : Char} (h : a.toNat ≠ b.toNat) : a ≠ b :=
  fun he => h (congrArg Char.toNat he)

theorem toNat_ofNat_lt (b : Nat) (hb : b < 0xD800) : (Char.ofNat b).toNat = b := by
  unfold Char.ofNat
  split
  · rfl
  · rename_i hv
    exact absurd (Or.inl hb) hv

/-- Every UTF-8 byte of a Unicode scalar is below 256. -/
theorem utf8Enc_lt256 (n : Nat) (hn : n < 1114112) : ∀ b ∈ utf8Enc n, b < 256 := by
  intro b hb
  unfold utf8Enc at hb
  split_ifs at hb with h1 h2 h3
  · simp at hb; omega
  · simp at hb; rcases hb with hb | hb <;> omega
  · simp at hb; rcases hb with hb | hb | hb <;> omega
  · simp at hb; rcases hb with hb | hb | hb | hb <;> omega

theorem strToUtf8_lt256 (s : List Char) : ∀ b ∈ strToUtf8 s, b < 256 := by
  intro b hb
  unfold strToUtf8 at hb
  rw [List.mem_flatten] at hb
  obtain ⟨chunk, hchunk, hbc⟩ := hb
  rw [List.mem_map] at hchunk
  obtain ⟨c, _, rfl⟩ := hchunk
  exact utf8Enc_lt256 c.toNat (char_toNat_lt c) b hbc

/-- Classification of the characters `quote` can emit. -/
theorem quote_mem (safe s : List Char) (ch : Char) (hch : ch ∈ quote safe s) :
    ch = '%' ∨
    (∃ n, n < 16 ∧ ch = hexUpperDigit n) ∨
    (∃ b, b < 256 ∧ ch = Char.ofNat b ∧
      (alwaysSafeByte b = true ∨ (b < 128 ∧ safe.contains (Char.ofNat b) = true))) := by
  unfold quote at hch
  rw [List.mem_flatten] at hch
  obtain ⟨chunk, hchunk, hc⟩ := hch
  rw [List.mem_map] at hchunk
  obtain ⟨b, hb, rfl⟩ := hchunk
  have hb256 : b < 256 := strToUtf8_lt256 s b hb
  unfold quoteByte at hc
  split_ifs at hc with hsafe
  · right; right
    simp only [List.mem_singleton] at hc
    refine ⟨b, hb256, hc, ?_⟩
    rcases hsafe with h | h
    · exact Or.inl h
    · exact Or.inr ⟨h.1, h.2⟩
  · simp only [List.mem_cons, List.mem_singleton, List.not_mem_nil, or_false] at hc
    rcases hc with rfl | rfl | rfl
    · exact Or.inl rfl
    · exact Or.inr (Or.inl ⟨b / 16, by omega, rfl⟩)
    · exact Or.inr (Or.inl ⟨b % 16, by omega, rfl⟩)

theorem hexUpperDigit_toNat (n : Nat) (hn : n < 16) :
    (hexUpperDigit n).toNat = if n < 10 then 48 + n else 55 + n := by
  unfold hexUpperDigit
  split_ifs with h
  · exact toNat_ofNat_lt _ (by omega)
  · exact toNat_ofNat_lt _ (by omega)

theorem alwaysSafeByte_range (b : Nat) (h : alwaysSafeByte b = true) :
    32 < b ∧ b < 128 ∧ b ≠ 35 ∧ b ≠ 63 ∧ b ≠ 37 ∧ b ≠ 38 ∧ b ≠ 61 ∧ b ≠ 43 ∧
    b ≠ 47 ∧ b ≠ 58 ∧ b ≠ 64 ∧ b ≠ 91 ∧ b ≠ 93 := by
  unfold alwaysSafeByte at h
  simp only [decide_eq_true_eq] at h
  rcases h with h | h | h | h | h | h | h <;> omega

/-- `quote` output consists of URL-inert text when the safe set does. -/
theorem quote_all_urlTextOk (safe s : List Char)
    (hsafe : ∀ ch ∈ safe, urlTextOk ch = true) :
    ∀ ch ∈ quote safe s, urlTextOk ch = true := by
  intro ch hch
  rcases quote_mem safe s ch hch with rfl | ⟨n, hn, rfl⟩ | ⟨b, hb, rfl, hcls⟩
  · decide
  · have ht := hexUpperDigit_toNat n hn
    have h35 : ('#').toNat = 35 := by decide
    unfold urlTextOk
    simp only [decide_eq_true_eq]
    split_ifs at ht <;>
      exact ⟨by omega, by omega, char_ne_of_toNat (by rw [ht]; omega)⟩
  · rcases hcls with hA | ⟨hb128, hS⟩
    · have hr := alwaysSafeByte_range b hA
      have h35 : ('#').toNat = 35 := by decide
      unfold urlTextOk
      simp only [decide_eq_true_eq]
      have ht := toNat_ofNat_lt b (by omega)
      exact ⟨by omega, by omega, char_ne_of_toNat (by rw [ht]; omega)⟩
    · have : Char.ofNat b ∈ safe := by
        rw [← List.elem_iff]
        exact hS
      exact hsafe _ this

end Py

namespace Py

theorem urlTextOk_hexUpper (n : Nat) (hn : n < 16) :
    urlTextOk (hexUpperDigit n) = true := by
  have ht := hexUpperDigit_toNat n hn
  have h35 : ('#').toNat = 35 := by decide
  unfold urlTextOk
  simp only [decide_eq_true_eq]
  split_ifs at ht <;>
    exact ⟨by omega, by omega, char_ne_of_toNat (by rw [ht]; omega)⟩

theorem urlTextOk_alwaysSafe (b : Nat) (h : alwaysSafeByte b = true) :
    urlTextOk (Char.ofNat b) = true := by
  have hr := alwaysSafeByte_range b h
  have h35 : ('#').toNat = 35 := by decide
  unfold urlTextOk
  simp only [decide_eq_true_eq]
  have ht := toNat_ofNat_lt b (by omega)
  exact ⟨by omega, by omega, char_ne_of_toNat (by rw [ht]; omega)⟩

/-- `quote` never emits `?` when the safe set lacks it. -/
theorem quote_all_ne_qmark (safe s : List Char)
    (hsafe : ∀ ch ∈ safe, ch ≠ '?') :
    ∀ ch ∈ quote safe s, ch ≠ '?' := by
  intro ch hch
  rcases quote_mem safe s ch hch with rfl | ⟨n, hn, rfl⟩ | ⟨b, hb, rfl, hcls⟩
  · decide
  · have ht := hexUpperDigit_toNat n hn
    have h63 : ('?').toNat = 63 := by decide
    split_ifs at ht <;>
      exact char_ne_of_toNat (by rw [ht]; omega)
  · rcases hcls with hA | ⟨hb128, hS⟩
    · have hr := alwaysSafeByte_range b hA
      have h63 : ('?').toNat = 63 := by decide
      have ht := toNat_ofNat_lt b (by omega)
      exact char_ne_of_toNat (by rw [ht]; omega)
    · refine hsafe _ ?_
      rw [← List.elem_iff]
      exact hS

/-- The characters of `intercalate "&"` come from the chunks or are `&`. -/
theorem mem_intercalate_amp (l : List (List Char)) (ch : Char)
    (h : ch ∈ List.intercalate ['&'] l) : ch = '&' ∨ ∃ x ∈ l, ch ∈ x := by
  induction l with
  | nil => simp [List.intercalate] at h
  | cons x t ih =>
      cases t with
      | nil =>
          simp only [List.intercalate, List.intersperse_singleton,
            List.flatten, List.append_nil] at h
          exact Or.inr ⟨x, List.mem_cons_self x [], h⟩
      | cons y t2 =>
          simp only [List.intercalate, List.intersperse_cons₂, List.flatten] at h
          rcases List.mem_append.mp h with hc | hc
          · exact Or.inr ⟨x, List.mem_cons_self x _, hc⟩
          · rcases List.mem_append.mp hc with hc2 | hc2
            · exact Or.inl (by simpa using hc2)
            · rcases ih (by simpa [List.intercalate] using hc2) with h1 | ⟨z, hz, hcz⟩
              · exact Or.inl h1
              · exact Or.inr ⟨z, List.mem_cons_of_mem x hz, hcz⟩

/-- `quote_plus` with an empty safe set emits only URL-inert text. -/
theorem quote_plus_empty_all (s : List Char) :
    ∀ ch ∈ quote_plus [] s, urlTextOk ch = true := by
  unfold quote_plus
  split_ifs with h
  · intro ch hch
    unfold replaceChar at hch
    rw [List.mem_map] at hch
    obtain ⟨o, ho, rfl⟩ := hch
    by_cases hsp : o = ' '
    · rw [if_pos hsp]
      decide
    · rw [if_neg hsp]
      rcases quote_mem [' '] s o ho with rfl | ⟨n, hn, rfl⟩ | ⟨b, hb, rfl, hcls⟩
      · decide
      · exact urlTextOk_hexUpper n hn
      · rcases hcls with hA | ⟨hb128, hS⟩
        · exact urlTextOk_alwaysSafe b hA
        · exfalso
          apply hsp
          have : Char.ofNat b ∈ [' '] := by
            rw [← List.elem_iff]
            exact hS
          simpa using this
  · intro ch hch
    refine quote_all_urlTextOk [] s ?_ ch hch
    intro c hc
    simp at hc

/-- `urlencode` emits only URL-inert text. -/
theorem urlencode_all_urlTextOk (prs : List (List Char × List Char)) :
    ∀ ch ∈ urlencode prs, urlTextOk ch = true := by
  intro ch hch
  unfold urlencode at hch
  rcases mem_intercalate_amp _ ch hch with rfl | ⟨x, hx, hcx⟩
  · decide
  · rw [List.mem_map] at hx
    obtain ⟨kv, _, rfl⟩ := hx
    rcases List.mem_append.mp hcx with hc | hc
    · exact quote_plus_empty_all _ ch hc
    · rcases List.mem_cons.mp hc with rfl | hc
      · decide
      · exact quote_plus_empty_all _ ch hc

end Py

namespace Recon

open Py

/-- Plain host characters are inert for every parsing step used on hosts. -/
theorem hostPlainChar_props (ch : Char) (h : hostPlainChar ch = true) :
    urlTextOk ch = true ∧ ch ≠ '/' ∧ ch ≠ '?' ∧ ch ≠ '[' ∧ ch ≠ ']' ∧
    ch ≠ '@' ∧ ch ≠ '%' ∧ ch ≠ ':' ∧ ¬ ('A' ≤ ch ∧ ch ≤ 'Z') := by
  unfold hostPlainChar at h
  simp only [decide_eq_true_eq] at h
  have htn : 32 < ch.toNat ∧ ch.toNat < 128 ∧ ch.toNat ≠ 35 ∧ ch.toNat ≠ 47 ∧
      ch.toNat ≠ 63 ∧ ch.toNat ≠ 91 ∧ ch.toNat ≠ 93 ∧ ch.toNat ≠ 64 ∧
      ch.toNat ≠ 37 ∧ ch.toNat ≠ 58 ∧ ¬ (65 ≤ ch.toNat ∧ ch.toNat ≤ 90) := by
    rcases h with h | h | h | h | h
    · have h1 : 97 ≤ ch.toNat := h.1
      have h2 : ch.toNat ≤ 122 := h.2
      omega
    · have h1 : 48 ≤ ch.toNat := h.1
      have h2 : ch.toNat ≤ 57 := h.2
      omega
    · subst h; decide
    · subst h; decide
    · subst h; decide
  obtain ⟨t1, t2, t3, t4, t5, t6, t7, t8, t9, t10, t11⟩ := htn
  have h35 : ('#').toNat = 35 := by decide
  have h47 : ('/').toNat = 47 := by decide
  have h63 : ('?').toNat = 63 := by decide
  have h91 : ('[').toNat = 91 := by decide
  have h93 : (']').toNat = 93 := by decide
  have h64 : ('@').toNat = 64 := by decide
  have h37 : ('%').toNat = 37 := by decide
  have h58 : (':').toNat = 58 := by decide
  refine ⟨?_, char_ne_of_toNat (by omega), char_ne_of_toNat (by omega),
    char_ne_of_toNat (by omega), char_ne_of_toNat (by omega),
    char_ne_of_toNat (by omega), char_ne_of_toNat (by omega),
    char_ne_of_toNat (by omega), ?_⟩
  · unfold urlTextOk
    simp only [decide_eq_true_eq]
    exact ⟨t2, t1, char_ne_of_toNat (by omega)⟩
  · intro hAZ
    have a1 : 65 ≤ ch.toNat := hAZ.1
    have a2 : ch.toNat ≤ 90 := hAZ.2
    exact t11 ⟨a1, a2⟩

/-- `_hostinfo` on a plain host is the host with no port. -/
theorem hostinfoOf_plain (nl : List Char)
    (hok : ∀ ch ∈ nl, hostPlainChar ch = true) : hostinfoOf nl = (nl, none) := by
  have h1 : splitFirst '@' nl.reverse = none :=
    splitFirst_eq_none _ _ fun x hx =>
      (hostPlainChar_props x (hok x (List.mem_reverse.mp hx))).2.2.2.2.2.1
  have h2 : splitFirst '[' nl = none :=
    splitFirst_eq_none _ _ fun x hx =>
      (hostPlainChar_props x (hok x hx)).2.2.2.1
  have h3 : splitFirst ':' nl = none :=
    splitFirst_eq_none _ _ fun x hx =>
      (hostPlainChar_props x (hok x hx)).2.2.2.2.2.2.2.1
  simp [hostinfoOf, rpartitionChar, partitionChar, h1, h2, h3]

/-- The `hostname` property of a plain nonempty host is the host itself. -/
theorem hostnameOf_plain (nl : List Char) (hne : nl ≠ [])
    (hok : ∀ ch ∈ nl, hostPlainChar ch = true) : hostnameOf nl = some nl := by
  have h4 : splitFirst '%' nl = none :=
    splitFirst_eq_none _ _ fun x hx =>
      (hostPlainChar_props x (hok x hx)).2.2.2.2.2.2.1
  have h5 : lower nl = nl :=
    lower_eq_self nl fun x hx => (hostPlainChar_props x (hok x hx)).2.2.2.2.2.2.2.2
  unfold hostnameOf
  rw [hostinfoOf_plain nl hok]
  simp [partitionChar, h4, h5, hne]

/-- The `port` property of a plain host is `None`. -/
theorem portOfE_plain (nl : List Char)
    (hok : ∀ ch ∈ nl, hostPlainChar ch = true) : portOfE nl = .ok none := by
  unfold portOfE
  rw [hostinfoOf_plain nl hok]

/-- `urlunsplit` on an absolute-path split with nonempty netloc, written as
plain concatenation. -/
theorem urlunsplit_form (sch nl p q : List Char) (hsch : sch ≠ [])
    (hnl : nl ≠ []) (hp : p.head? = some '/') :
    urlunsplit sch nl p q [] =
      (sch ++ ':' :: '/' :: '/' :: (nl ++ p)) ++
        (if q.isEmpty then [] else '?' :: q) := by
  unfold urlunsplit
  simp only []
  rw [if_neg (by simp)]
  by_cases hq : q.isEmpty
  · rw [if_neg (by simpa using hq)]
    rw [if_pos (by simpa using hsch)]
    rw [if_pos (Or.inl (by simpa using hnl))]
    rw [if_neg (fun hcon => hcon.2 hp)]
    rw [if_pos hq]
    simp only [List.append_nil]
  · rw [if_pos (by simpa using hq)]
    rw [if_pos (by simpa using hsch)]
    rw [if_pos (Or.inl (by simpa using hnl))]
    rw [if_neg (fun hcon => hcon.2 hp)]
    rw [if_neg hq]

end Recon

namespace Py

/-- Consequences of `urlTextOk` for the cleanup steps of `urlsplit`. -/
theorem urlTextOk_props (ch : Char) (h : urlTextOk ch = true) :
    isStripWS ch = false ∧ ch ≠ '#' ∧ ¬ (ch = '\t' ∨ ch = '\r' ∨ ch = '\n') ∧
    0x20 < ch.toNat := by
  unfold urlTextOk at h
  simp only [decide_eq_true_eq] at h
  obtain ⟨h1, h2, h3⟩ := h
  refine ⟨?_, h3, ?_, h2⟩
  · unfold isStripWS
    simp only [decide_eq_false_iff_not]
    intro hc
    rcases hc with hc | hc | hc | hc | hc | hc | hc | hc | hc | hc | hc | hc
    · rw [hc] at h2
      exact absurd h2 (by decide)
    all_goals omega
  · intro hc
    rcases hc with hc | hc | hc <;>
      · rw [hc] at h2
        exact absurd h2 (by decide)

/-- `lstripC0Space` is the identity when the head is above `0x20`. -/
theorem lstripC0_id_head (s : List Char) (c : Char) (hc : s.head? = some c)
    (h : 0x20 < c.toNat) : lstripC0Space s = s := by
  cases s with
  | nil => simp at hc
  | cons a t =>
      simp only [List.head?_cons, Option.some.injEq] at hc
      subst hc
      unfold lstripC0Space
      rw [List.dropWhile_cons]
      rw [show (decide (a.toNat ≤ 0x20)) = false by
        simp only [decide_eq_false_iff_not]
        omega]
      simp

end Py

namespace Recon

open Py

/-- Reparsing a URL reassembled by `urlunsplit` from an http(s) scheme, a
plain nonempty netloc, an absolute inert path and an inert query recovers
exactly those components. -/
theorem urlsplit_reconstruct (sch nl p q : List Char)
    (hsch : sch = "http".data ∨ sch = "https".data)
    (hnl : nl ≠ []) (hnlok : ∀ ch ∈ nl, hostPlainChar ch = true)
    (hp : p.head? = some '/')
    (hpok : ∀ ch ∈ p, urlTextOk ch = true)
    (hpq : ∀ ch ∈ p, ch ≠ '?')
    (hqok : ∀ ch ∈ q, urlTextOk ch = true) :
    urlsplitE ((sch ++ ':' :: '/' :: '/' :: (nl ++ p)) ++
        (if q.isEmpty then [] else '?' :: q)) [] = .ok ⟨sch, nl, p, q, []⟩ := by
  have hcolon : ∀ x ∈ sch, x ≠ ':' := by
    rcases hsch with rfl | rfl <;> decide
  have hall : sch.all isSchemeChar = true := by
    rcases hsch with rfl | rfl <;> decide
  have hlow : lower sch = sch := by
    rcases hsch with rfl | rfl <;> rfl
  have hsok : ∀ x ∈ sch, urlTextOk x = true := by
    rcases hsch with rfl | rfl <;> decide
  have hheadh : sch.head? = some 'h' := by
    rcases hsch with rfl | rfl <;> rfl
  have hQPok : ∀ x ∈ (if q.isEmpty then [] else '?' :: q), urlTextOk x = true := by
    split_ifs with hqe
    · intro x hx
      simp at hx
    · intro x hx
      rcases List.mem_cons.mp hx with rfl | hx
      · decide
      · exact hqok x hx
  obtain ⟨scht, rfl⟩ : ∃ t, sch = 'h' :: t := by
    cases sch with
    | nil => simp at hheadh
    | cons a t =>
        simp only [List.head?_cons, Option.some.injEq] at hheadh
        exact ⟨t, by rw [hheadh]⟩
  obtain ⟨p', rfl⟩ : ∃ t, p = '/' :: t := by
    cases p with
    | nil => simp at hp
    | cons a t =>
        simp only [List.head?_cons, Option.some.injEq] at hp
        exact ⟨t, by rw [hp]⟩
  generalize hQP : (if q.isEmpty then ([] : List Char) else '?' :: q) = QP at hQPok ⊢
  have hWn : (('h' :: scht) ++ ':' :: '/' :: '/' :: (nl ++ '/' :: p')) ++ QP =
      ('h' :: scht) ++ ':' :: '/' :: '/' :: (nl ++ (('/' :: p') ++ QP)) := by
    simp [List.append_assoc]
  rw [hWn]
  have hWok : ∀ x ∈ ('h' :: scht) ++ ':' :: '/' :: '/' ::
      (nl ++ (('/' :: p') ++ QP)), urlTextOk x = true := by
    intro x hx
    simp only [List.mem_append, List.mem_cons] at hx
    rcases hx with (rfl | hx) | rfl | rfl | rfl | hx | (rfl | hx) | hx
    · decide
    · exact hsok x (List.mem_cons_of_mem 'h' hx)
    · decide
    · decide
    · decide
    · exact (hostPlainChar_props x (hnlok x hx)).1
    · decide
    · exact hpok x (List.mem_cons_of_mem '/' hx)
    · exact hQPok x hx
  unfold urlsplitE
  simp only []
  have h1 : lstripC0Space (('h' :: scht) ++ ':' :: '/' :: '/' ::
      (nl ++ (('/' :: p') ++ QP))) =
      ('h' :: scht) ++ ':' :: '/' :: '/' :: (nl ++ (('/' :: p') ++ QP)) :=
    lstripC0_id_head _ 'h' rfl (by decide)
  rw [h1]
  have h2 : removeUnsafe (('h' :: scht) ++ ':' :: '/' :: '/' ::
      (nl ++ (('/' :: p') ++ QP))) =
      ('h' :: scht) ++ ':' :: '/' :: '/' :: (nl ++ (('/' :: p') ++ QP)) := by
    refine removeUnsafe_id _ ?_
    intro x hx
    exact (urlTextOk_props x (hWok x hx)).2.2.1
  rw [h2]
  have hfind : findChar ':' (('h' :: scht) ++ ':' :: '/' :: '/' ::
      (nl ++ (('/' :: p') ++ QP))) = some ('h' :: scht).length :=
    findChar_append_cons ':' ('h' :: scht) _ hcolon
  have hdrop : (('h' :: scht) ++ ':' :: '/' :: '/' ::
      (nl ++ (('/' :: p') ++ QP))).drop (('h' :: scht).length + 1) =
      '/' :: '/' :: (nl ++ (('/' :: p') ++ QP)) := by
    rw [show ('h' :: scht) ++ ':' :: '/' :: '/' :: (nl ++ (('/' :: p') ++ QP)) =
        (('h' :: scht) ++ [':']) ++ '/' :: '/' :: (nl ++ (('/' :: p') ++ QP)) by
      simp]
    rw [show ('h' :: scht).length + 1 = (('h' :: scht) ++ [':']).length by simp]
    exact List.drop_left _ _
  have h3 : splitSchemePart (('h' :: scht) ++ ':' :: '/' :: '/' ::
      (nl ++ (('/' :: p') ++ QP))) [] =
      ('h' :: scht, '/' :: '/' :: (nl ++ (('/' :: p') ++ QP))) := by
    unfold splitSchemePart
    rw [hfind]
    simp only []
    split_ifs with hcnd
    · rw [List.take_left, hlow, hdrop]
    · exact absurd ⟨by simp, by rfl, by rw [List.take_left]; exact hall⟩ hcnd
  rw [h3]
  simp only []
  rw [if_pos (show ('/' :: '/' :: (nl ++ (('/' :: p') ++ QP))).take 2 = ['/', '/']
    from by rfl)]
  have hnldelim : ∀ x ∈ nl, (fun c => ¬ isNetlocDelim c : Char → Bool) x = true := by
    intro x hx
    have hpr := hostPlainChar_props x (hnlok x hx)
    have h35 := (urlTextOk_props x hpr.1).2.1
    simp only [decide_eq_true_eq]
    unfold isNetlocDelim
    simp only [decide_eq_true_eq]
    intro hc
    rcases hc with hc | hc | hc
    · exact hpr.2.1 hc
    · exact hpr.2.2.1 hc
    · exact h35 hc
  have htw : List.takeWhile (fun c => ¬ isNetlocDelim c)
      (('/' :: '/' :: (nl ++ (('/' :: p') ++ QP))).drop 2) = nl := by
    show List.takeWhile (fun c => ¬ isNetlocDelim c) (nl ++ (('/' :: p') ++ QP)) = nl
    rw [tw_append_all _ _ _ hnldelim]
    simp only [List.cons_append, List.takeWhile_cons]
    have hsl : (decide (¬ isNetlocDelim '/' = true)) = false := by decide
    rw [hsl]
    simp
  have hdw : List.dropWhile (fun c => ¬ isNetlocDelim c)
      (('/' :: '/' :: (nl ++ (('/' :: p') ++ QP))).drop 2) = ('/' :: p') ++ QP := by
    show List.dropWhile (fun c => ¬ isNetlocDelim c) (nl ++ (('/' :: p') ++ QP)) = _
    rw [dw_append_all _ _ _ hnldelim]
    simp only [List.cons_append, List.dropWhile_cons]
    have hsl : (decide (¬ isNetlocDelim '/' = true)) = false := by decide
    rw [hsl]
    simp
  rw [htw, hdw]
  have hbrL : nl.contains '[' = false := by
    cases hcb : nl.contains '[' with
    | false => rfl
    | true =>
        exfalso
        have hm : '[' ∈ nl := by
          rw [← List.elem_iff]
          exact hcb
        exact (hostPlainChar_props _ (hnlok _ hm)).2.2.2.1 rfl
  have hbrR : nl.contains ']' = false := by
    cases hcb : nl.contains ']' with
    | false => rfl
    | true =>
        exfalso
        have hm : ']' ∈ nl := by
          rw [← List.elem_iff]
          exact hcb
        exact (hostPlainChar_props _ (hnlok _ hm)).2.2.2.2.1 rfl
  have hm1 : ¬ ('[' ∈ nl) := fun hm => (hostPlainChar_props _ (hnlok _ hm)).2.2.2.1 rfl
  have hm2 : ¬ (']' ∈ nl) := fun hm => (hostPlainChar_props _ (hnlok _ hm)).2.2.2.2.1 rfl
  rw [if_neg (by
    simp only [hbrL, hbrR]
    simp)]
  rw [if_neg (by
    simp only [hbrL]
    simp)]
  simp only []
  by_cases hqe : q.isEmpty
  · rw [if_pos hqe] at hQP
    subst hQP
    have hq0 : q = [] := by
      simpa using hqe
    subst hq0
    have hhash : splitFirst '#' (('/' :: p') ++ []) = none := by
      refine splitFirst_eq_none _ _ ?_
      intro x hx
      simp only [List.append_nil] at hx
      rcases List.mem_cons.mp hx with rfl | hx
      · decide
      · exact (urlTextOk_props x (hpok x (List.mem_cons_of_mem '/' hx))).2.1
    rw [hhash]
    simp only []
    have hqm : splitFirst '?' (('/' :: p') ++ []) = none := by
      refine splitFirst_eq_none _ _ ?_
      intro x hx
      simp only [List.append_nil] at hx
      exact hpq x hx
    rw [hqm]
    simp
  · rw [if_neg hqe] at hQP
    subst hQP
    have hhash : splitFirst '#' (('/' :: p') ++ '?' :: q) = none := by
      refine splitFirst_eq_none _ _ ?_
      intro x hx
      rcases List.mem_append.mp hx with hx | hx
      · rcases List.mem_cons.mp hx with rfl | hx
        · decide
        · exact (urlTextOk_props x (hpok x (List.mem_cons_of_mem '/' hx))).2.1
      · rcases List.mem_cons.mp hx with rfl | hx
        · decide
        · exact (urlTextOk_props x (hqok x hx)).2.1
    rw [hhash]
    simp only []
    rw [splitFirst_append_cons '?' ('/' :: p') q hpq]

end Recon

namespace Py

theorem utf8DecRepl_head (b : Nat) (r : List Nat) (hb : b < 0x80) :
    (utf8DecRepl (b :: r)).head? = some b := by
  unfold utf8DecRepl
  rw [show (b :: r).length = r.length + 1 from rfl]
  unfold utf8DecGo
  simp only []
  unfold utf8Step
  rw [if_pos hb]
  rfl

theorem bytesToChars_head (b : Nat) (r : List Nat) (hb : b < 0x80) :
    (bytesToChars (b :: r)).head? = some (Char.ofNat b) := by
  unfold bytesToChars
  rw [List.head?_map, utf8DecRepl_head b r hb]
  rfl

theorem regroup_head (toks : List (Sum Nat Char)) :
    ∀ (acc : List Nat) (b : Nat), acc.head? = some b → b < 0x80 →
      (unquoteRegroup acc toks).head? = some (Char.ofNat b) := by
  induction toks with
  | nil =>
      intro acc b hh hb
      cases acc with
      | nil => simp at hh
      | cons a r =>
          simp only [List.head?_cons, Option.some.injEq] at hh
          subst hh
          exact bytesToChars_head a r hb
  | cons t rest ih =>
      intro acc b hh hb
      cases t with
      | inl b2 =>
          show (unquoteRegroup (acc ++ [b2]) rest).head? = _
          refine ih (acc ++ [b2]) b ?_ hb
          cases acc with
          | nil => simp at hh
          | cons a r => simpa using hh
      | inr c =>
          show (bytesToChars acc ++ c :: unquoteRegroup [] rest).head? = _
          cases acc with
          | nil => simp at hh
          | cons a r =>
              simp only [List.head?_cons, Option.some.injEq] at hh
              subst hh
              have h1 := bytesToChars_head a r hb
              cases hbc : bytesToChars (a :: r) with
              | nil => rw [hbc] at h1; simp at h1
              | cons c0 tl =>
                  rw [hbc] at h1
                  simp only [List.head?_cons, Option.some.injEq] at h1
                  rw [h1]
                  rfl

theorem unquoteToks_cons_nonpct (c : Char) (t : List Char) (hc : c ≠ '%')
    (hascii : isAsciiChar c = true) :
    unquoteToks (c :: t) = Sum.inl c.toNat :: unquoteToks t := by
  cases t with
  | nil => simp [unquoteToks, hc, hascii]
  | cons c1 t1 =>
      cases t1 with
      | nil => simp [unquoteToks, hc, hascii]
      | cons c2 t2 => simp [unquoteToks, hc, hascii]

/-- `unquote` keeps a leading slash. -/
theorem unquote_head_slash (t : List Char) :
    (unquote ('/' :: t)).head? = some '/' := by
  unfold unquote
  split_ifs with h
  · rw [unquoteToks_cons_nonpct '/' t (by decide) (by decide)]
    show (unquoteRegroup ([] ++ [('/').toNat]) (unquoteToks t)).head? = some '/'
    have := regroup_head (unquoteToks t) [('/').toNat] ('/').toNat rfl (by decide)
    simpa using this
  · rfl

/-- `quote` with the path safe set keeps a leading slash. -/
theorem quote_pathSafe_cons_slash (t : List Char) :
    quote Recon.pathSafe ('/' :: t) = '/' :: quote Recon.pathSafe t := by
  rfl

end Py

namespace Py

theorem rstripSet_isPrefixOf (cs s : List Char) : rstripSet cs s <+: s := by
  unfold rstripSet
  have h := List.dropWhile_suffix (l := s.reverse) (p := fun c => cs.contains c)
  have h2 := h.reverse
  simpa using h2

theorem prefix_head (a b : List Char) (h : a <+: b) (ha : a ≠ []) :
    a.head? = b.head? := by
  obtain ⟨t, rfl⟩ := h
  cases a with
  | nil => exact absurd rfl ha
  | cons c r => rfl

end Py

namespace Recon

open Py

theorem ite_isEmpty_ne_nil (X : List Char) :
    (if X.isEmpty then "/".data else X) ≠ [] := by
  split_ifs with h
  · decide
  · simpa [List.isEmpty_iff] using h

/-- `_normalize_path` never returns the empty string. -/
theorem normalizePath_ne_nil (p : List Char) : normalizePath p ≠ [] := by
  unfold normalizePath
  simp only []
  exact ite_isEmpty_ne_nil _

/-- Every character `_normalize_path` emits is URL-inert and not `?`. -/
theorem normalizePath_chars (p : List Char) :
    ∀ ch ∈ normalizePath p, urlTextOk ch = true ∧ ch ≠ '?' := by
  unfold normalizePath
  simp only []
  intro ch hch
  split_ifs at hch <;>
    first
      | (simp at hch; subst hch; exact ⟨by decide, by decide⟩)
      | exact ⟨quote_all_urlTextOk pathSafe _ (by decide) ch hch,
          quote_all_ne_qmark pathSafe _ (by decide) ch hch⟩

/-- `_normalize_path` output starts with a slash. -/
theorem normalizePath_head (p : List Char) :
    (normalizePath p).head? = some '/' := by
  unfold normalizePath
  simp only []
  generalize normpath (collapseSlashes (if p.isEmpty = true then "/".data else p)) = n0
  generalize hg1 : (if n0.head? ≠ some '/' then '/' :: n0 else n0) = n1
  have hh1 : n1.head? = some '/' := by
    rw [← hg1]
    split_ifs with h
    · rfl
    · push_neg at h
      exact h
  generalize hg2 : (if n1 = "/.".data then "/".data else n1) = n2
  have hh2 : n2.head? = some '/' := by
    rw [← hg2]
    split_ifs with h
    · rfl
    · exact hh1
  generalize hg3 : (if n2 ≠ "/".data ∧ n2.getLast? = some '/' then
      rstripSet ['/'] n2 else n2) = n3
  have hh3 : n3 = [] ∨ n3.head? = some '/' := by
    rw [← hg3]
    split_ifs with h
    · by_cases hz : rstripSet ['/'] n2 = []
      · exact Or.inl hz
      · right
        rw [prefix_head _ _ (rstripSet_isPrefixOf ['/'] n2) hz]
        exact hh2
    · exact Or.inr hh2
  rcases hh3 with rfl | hh3
  · rw [show unquote ([] : List Char) = [] from rfl]
    rw [show quote pathSafe [] = [] from rfl]
    rfl
  · obtain ⟨t, rfl⟩ : ∃ t, n3 = '/' :: t := by
      cases n3 with
      | nil => simp at hh3
      | cons a r =>
          simp only [List.head?_cons, Option.some.injEq] at hh3
          exact ⟨r, by rw [hh3]⟩
    have hu := unquote_head_slash t
    obtain ⟨u, hu2⟩ : ∃ u, unquote ('/' :: t) = '/' :: u := by
      cases hx : unquote ('/' :: t) with
      | nil => rw [hx] at hu; simp at hu
      | cons a r =>
          rw [hx] at hu
          simp only [List.head?_cons, Option.some.injEq] at hu
          exact ⟨r, by rw [hu]⟩
    rw [hu2, quote_pathSafe_cons_slash]
    split_ifs with h
    · exact absurd h (by simp)
    · rfl

end Recon

namespace Recon

open Py

set_option maxHeartbeats 2000000 in
/-- Structure of a successful canonicalization: the scheme is http(s), the
URL is the `urlunsplit` of the fields, the netloc is a trailing-dot-stripped
host with an optional port, and path/query come from the normalizers. -/
theorem canonicalize_shape (u : List Char) (c : CanonicalUrl)
    (h : canonicalize_url u none true = .ok (some c)) :
    (c.scheme = "http".data ∨ c.scheme = "https".data) ∧
    c.url = urlunsplit c.scheme c.host c.path c.query [] ∧
    c.host ≠ [] ∧
    (∃ X, c.host = rstripSet ['.'] X ∨
          ∃ pn : Nat, c.host = rstripSet ['.'] X ++ ':' :: natToDigits pn) ∧
    (∃ parg, c.path = normalizePath parg) ∧
    (∃ qarg, c.query = urlencode (filterSortQueryPairs (parse_qsl qarg) true)) := by
  unfold canonicalize_url at h
  by_cases h1 : u.isEmpty
  · rw [if_pos h1] at h
    injection h with h
    exact Option.noConfusion h
  rw [if_neg h1] at h
  simp only [] at h
  by_cases h2 : (strip u).isEmpty
  · rw [if_pos h2] at h
    injection h with h
    exact Option.noConfusion h
  rw [if_neg h2] at h
  split at h
  · injection h with h
    exact Option.noConfusion h
  rename_i parts hparts
  by_cases hs : ¬ (lower parts.scheme = "http".data ∨ lower parts.scheme = "https".data)
  · rw [if_pos hs] at h
    injection h with h
    exact Option.noConfusion h
  rw [if_neg hs] at h
  rw [not_not] at hs
  by_cases hh : (rstripSet ['.'] (lower ((hostnameOf parts.netloc).getD []))).isEmpty
  · rw [if_pos hh] at h
    injection h with h
    exact Option.noConfusion h
  rw [if_neg hh] at h
  have hhne : rstripSet ['.'] (lower ((hostnameOf parts.netloc).getD [])) ≠ [] := by
    simpa [List.isEmpty_iff] using hh
  cases hport : portOfE parts.netloc with
  | error e =>
      rw [hport] at h
      exact Except.noConfusion h
  | ok port0 =>
      rw [hport] at h
      cases port0 with
      | none =>
          injection h with h
          injection h with h
          subst h
          exact ⟨hs, rfl, hhne, ⟨_, Or.inl rfl⟩, ⟨_, rfl⟩, ⟨_, rfl⟩⟩
      | some pn =>
          by_cases hz : pn = 0
          · subst hz
            injection h with h
            injection h with h
            subst h
            exact ⟨hs, rfl, hhne, ⟨_, Or.inl rfl⟩, ⟨_, rfl⟩, ⟨_, rfl⟩⟩
          · have hpt : (decide (pn ≠ 0)) = true := decide_eq_true hz
            simp only [] at h
            by_cases hdef : ((lower parts.scheme = "http".data ∧
                (some pn : Option Nat) = some 80) ∨
                (lower parts.scheme = "https".data ∧ (some pn : Option Nat) = some 443))
            · have hdd : (decide ((lower parts.scheme = "http".data ∧
                  (some pn : Option Nat) = some 80) ∨
                  (lower parts.scheme = "https".data ∧
                  (some pn : Option Nat) = some 443))) = true := decide_eq_true hdef
              simp only [hpt, hdd, Bool.true_and, if_true] at h
              injection h with h
              injection h with h
              subst h
              exact ⟨hs, rfl, hhne, ⟨_, Or.inl rfl⟩, ⟨_, rfl⟩, ⟨_, rfl⟩⟩
            · have hdd : (decide ((lower parts.scheme = "http".data ∧
                  (some pn : Option Nat) = some 80) ∨
                  (lower parts.scheme = "https".data ∧
                  (some pn : Option Nat) = some 443))) = false := decide_eq_false hdef
              simp only [hpt, hdd, Bool.true_and, Bool.false_eq_true, if_false] at h
              rw [if_neg hz] at h
              injection h with h
              injection h with h
              subst h
              refine ⟨hs, rfl, ?_, ⟨_, Or.inr ⟨pn, rfl⟩⟩, ⟨_, rfl⟩, ⟨_, rfl⟩⟩
              simp

end Recon

namespace Recon

open Py

set_option maxHeartbeats 2000000 in
/-- C4 (amended): canonicalization is idempotent on every input whose
canonical form has a plain (lowercase letters, digits, `.`, `-`, `_`)
host, a path that is a fixed point of `_normalize_path`, and a query that
`parse_qsl`/`_filter_and_sort_query_pairs`/`urlencode` reproduce verbatim:
re-canonicalizing such a canonical URL returns it unchanged.  (The
unconditional claim is false: see the counterexample.) -/
theorem C4_amended (u : List Char) (c : CanonicalUrl)
    (h : canonicalize_url u none true = .ok (some c))
    (hplain : hostPlain c.host = true)
    (hpathfix : normalizePath c.path = c.path)
    (hqenc : urlencode (parse_qsl c.query) = c.query)
    (hqfix : filterSortQueryPairs (parse_qsl c.query) true = parse_qsl c.query) :
    canonicalize_url c.url none true = .ok (some c) := by
  obtain ⟨hsch, hurl, hhne, ⟨X, hX⟩, ⟨parg, hpim⟩, ⟨qarg, hqim⟩⟩ :=
    canonicalize_shape u c h
  have hplain' : ∀ ch ∈ c.host, hostPlainChar ch = true := by
    intro ch hch
    exact List.all_eq_true.mp hplain ch hch
  have hhost : c.host = rstripSet ['.'] X := by
    rcases hX with hX | ⟨pn, hX⟩
    · exact hX
    · exfalso
      have hc : ':' ∈ c.host := by
        rw [hX]
        exact List.mem_append_right _ (List.mem_cons_self _ _)
      exact (hostPlainChar_props ':' ( hplain' ':' hc)).2.2.2.2.2.2.2.1 rfl
  have hlast : ∀ x, c.host.getLast? = some x → x ≠ '.' := by
    intro x hx
    rw [hhost] at hx
    exact rstripSet_dot_getLast X x hx
  have hpch : ∀ ch ∈ c.path, urlTextOk ch = true := by
    intro ch hch
    rw [← hpathfix] at hch
    exact (normalizePath_chars c.path ch hch).1
  have hpq : ∀ ch ∈ c.path, ch ≠ '?' := by
    intro ch hch
    rw [← hpathfix] at hch
    exact (normalizePath_chars c.path ch hch).2
  have hqch : ∀ ch ∈ c.query, urlTextOk ch = true := by
    intro ch hch
    rw [← hqenc] at hch
    exact urlencode_all_urlTextOk _ ch hch
  have hphead : c.path.head? = some '/' := by
    rw [← hpathfix]
    exact normalizePath_head c.path
  have hpne : c.path ≠ [] := by
    rw [← hpathfix]
    exact normalizePath_ne_nil c.path
  have hscne : c.scheme ≠ [] := by
    rcases hsch with h' | h' <;> simp [h']
  have hsok : ∀ x ∈ c.scheme, urlTextOk x = true := by
    rcases hsch with h' | h' <;> rw [h'] <;> decide
  have hW : c.url = (c.scheme ++ ':' :: '/' :: '/' :: (c.host ++ c.path)) ++
      (if c.query.isEmpty then [] else '?' :: c.query) := by
    rw [hurl]
    exact urlunsplit_form _ _ _ _ hscne hhne hphead
  have hreparse : urlsplitE c.url [] = .ok ⟨c.scheme, c.host, c.path, c.query, []⟩ := by
    rw [hW]
    exact urlsplit_reconstruct _ _ _ _ hsch hhne hplain' hphead hpch hpq hqch
  have hWok : ∀ x ∈ c.url, urlTextOk x = true := by
    intro x hx
    rw [hW] at hx
    rcases List.mem_append.mp hx with hx2 | hx2
    · rcases List.mem_append.mp hx2 with hx3 | hx3
      · exact hsok x hx3
      · rcases List.mem_cons.mp hx3 with rfl | hx4
        · decide
        · rcases List.mem_cons.mp hx4 with rfl | hx5
          · decide
          · rcases List.mem_cons.mp hx5 with rfl | hx6
            · decide
            · rcases List.mem_append.mp hx6 with hx7 | hx7
              · exact (hostPlainChar_props x (hplain' x hx7)).1
              · exact hpch x hx7
    · split_ifs at hx2 with hq
      · simp at hx2
      · rcases List.mem_cons.mp hx2 with rfl | hx3
        · decide
        · exact hqch x hx3
  have hne1 : ¬ c.url.isEmpty = true := by
    intro hcon
    have : c.url = [] := by simpa [List.isEmpty_iff] using hcon
    rw [hW] at this
    rcases List.append_eq_nil.mp this with ⟨h5, -⟩
    rcases List.append_eq_nil.mp h5 with ⟨-, h6⟩
    exact List.noConfusion h6
  have hstrip : strip c.url = c.url :=
    strip_eq_self _ (fun x hx => (urlTextOk_props x (hWok x hx)).1)
  have hrf : removeFragment c.url = c.url :=
    removeFragment_id _ (fun x hx => (urlTextOk_props x (hWok x hx)).2.1)
  have hhd : c.url.head? = some 'h' := by
    rw [hW]
    rcases hsch with h' | h' <;> rw [h'] <;> rfl
  have htake : ¬ c.url.take 2 = "//".data := by
    intro hcon
    have h7 : c.url.head? = some '/' := by
      cases hcu : c.url with
      | nil => rw [hcu] at hcon; simp at hcon
      | cons a t =>
          rw [hcu] at hcon
          simp [List.take] at hcon
          simp [hcon.1]
    rw [hhd] at h7
    simp at h7
  unfold canonicalize_url
  rw [if_neg hne1]
  simp only []
  rw [hstrip]
  rw [if_neg hne1]
  rw [hrf]
  rw [if_neg htake]
  rw [hreparse]
  simp only []
  have hnr : (decide (c.scheme.isEmpty = true ∨ c.host.isEmpty = true)) = false := by
    refine decide_eq_false ?_
    intro hcon
    rcases hcon with hcon | hcon
    · exact hscne (by simpa [List.isEmpty_iff] using hcon)
    · exact hhne (by simpa [List.isEmpty_iff] using hcon)
  rw [hnr]
  simp only [Bool.false_eq_true, if_false]
  have hlow : lower c.scheme = c.scheme := by
    rcases hsch with h' | h' <;> rw [h'] <;> rfl
  rw [hlow]
  rw [if_neg (not_not_intro hsch)]
  rw [hostnameOf_plain c.host hhne hplain']
  simp only [Option.getD_some]
  have hlower2 : lower c.host = c.host :=
    lower_eq_self _ (fun x hx => (hostPlainChar_props x (hplain' x hx)).2.2.2.2.2.2.2.2)
  rw [hlower2]
  have hrstr : rstripSet ['.'] c.host = c.host := by
    refine rstripSet_eq_self ['.'] c.host ?_
    intro x hx
    have := hlast x hx
    simp [this]
  rw [hrstr]
  rw [if_neg (show ¬ c.host.isEmpty = true from by simpa [List.isEmpty_iff] using hhne)]
  rw [portOfE_plain c.host hplain']
  simp only []
  rw [if_neg (show ¬ c.path.isEmpty = true from by simpa [List.isEmpty_iff] using hpne)]
  rw [hpathfix]
  rw [hqfix, hqenc]
  have hfin : (Except.ok (some ⟨urlunsplit c.scheme c.host c.path c.query [],
      c.scheme, c.host, c.path, c.query⟩) : Except Unit (Option CanonicalUrl)) =
      .ok (some c) := by
    rw [← hurl]
  exact hfin

end Recon

namespace Recon

/-- C4 (counterexample): canonicalization is not idempotent.
`http://h/a%2F%2Fb` canonicalizes to `http://h/a//b` — slash collapsing runs
before percent-decoding in `_normalize_path` — and re-canonicalizing that
collapses the now-literal double slash, giving `http://h/a/b`. -/
theorem C4_counterexample :
    canonical_url "http://h/a%2F%2Fb".data none true = .ok "http://h/a//b".data ∧
    canonical_url "http://h/a//b".data none true = .ok "http://h/a/b".data ∧
    "http://h/a//b".data ≠ "http://h/a/b".data := by
  refine ⟨by decide, by decide, by decide⟩

/-- C4 (witness): the amended idempotence theorem applied to
`http://example.com/a/b?k=v`, whose canonical form satisfies every
normality hypothesis. -/
theorem C4_amended_witness :
    canonicalize_url "http://example.com/a/b?k=v".data none true =
      .ok (some ⟨"http://example.com/a/b?k=v".data, "http".data,
        "example.com".data, "/a/b".data, "k=v".data⟩) :=
  C4_amended "http://example.com/a/b?k=v".data
    ⟨"http://example.com/a/b?k=v".data, "http".data, "example.com".data,
      "/a/b".data, "k=v".data⟩
    (by decide) (by decide) (by decide) (by decide) (by decide)

end Recon

namespace Py

/-- `filterMap` with a pointwise-identity function is the identity. -/
theorem filterMap_some_id {α : Type} (f : α → Option α) (l : List α)
    (h : ∀ x ∈ l, f x = some x) : l.filterMap f = l := by
  induction l with
  | nil => rfl
  | cons a t ih =>
      rw [List.filterMap_cons, h a (List.mem_cons_self a t),
          ih (fun x hx => h x (List.mem_cons_of_mem a hx))]

end Py

namespace Recon

open Py

/-- C3 (counterexample): the pattern key is not invariant under
canonicalization: a tracking parameter contributes to the pattern key of
the raw URL but is removed by canonicalization. -/
theorem C3_counterexample :
    canonical_url "http://h/?utm_source=x".data none true = .ok "http://h/".data ∧
    url_pattern_key "http://h/?utm_source=x".data ≠
      url_pattern_key "http://h/".data := by
  refine ⟨by decide, by decide⟩

end Recon

namespace Recon

open Py

set_option maxHeartbeats 2000000 in
/-- C3 (amended): the pattern key is invariant under canonicalization for
every URL that is already in canonical shape up to its query values: it
parses directly with an http(s) scheme, a plain portless host with no
trailing dot, a percent-free collapsed absolute path that
`_normalize_path` fixes, and a query with stripped, nonempty, non-tracking
keys that the `parse_qsl`/sort/`urlencode` pipeline reproduces.  (The
unconditional claim is false: see the counterexample.) -/
theorem C3_amended (u : List Char) (p : SplitResult) (c : CanonicalUrl)
    (h : canonicalize_url u none true = .ok (some c))
    (hsplit : urlsplitE u [] = .ok p)
    (hstr : strip u = u)
    (hhash : u.contains '#' = false)
    (htake2 : ¬ u.take 2 = "//".data)
    (hpsne : ¬ p.scheme.isEmpty = true)
    (hpnne : ¬ p.netloc.isEmpty = true)
    (hps : lower p.scheme = "http".data ∨ lower p.scheme = "https".data)
    (hport : portOfE p.netloc = .ok none)
    (hhplain : hostPlain (lower ((hostnameOf p.netloc).getD [])) = true)
    (hhne : lower ((hostnameOf p.netloc).getD []) ≠ [])
    (hhdot : ¬ (lower ((hostnameOf p.netloc).getD [])).getLast? = some '.')
    (hp0 : p.path.head? = some '/')
    (hnp : normalizePath p.path = p.path)
    (hqkeys : ∀ kv ∈ parse_qsl p.query, strip kv.1 = kv.1 ∧
      ¬ kv.1.isEmpty = true ∧ isTrackingKey (lower kv.1) = false)
    (hqsort : sortByLt pairKeyLt (parse_qsl p.query) = parse_qsl p.query)
    (hqrt : parse_qsl (urlencode (parse_qsl p.query)) = parse_qsl p.query) :
    url_pattern_key c.url = url_pattern_key u := by
  have hune : ¬ u.isEmpty = true := by
    intro hcon
    have h0 : u = [] := by simpa [List.isEmpty_iff] using hcon
    subst h0
    rw [show urlsplitE ([] : List Char) [] =
        .ok ⟨[], [], [], [], []⟩ from rfl] at hsplit
    injection hsplit with hs2
    apply hpnne
    rw [← hs2]
    rfl
  have hnomem : ∀ x ∈ u, x ≠ '#' := by
    intro x hx he
    subst he
    have h2 : u.elem '#' = true := List.elem_iff.mpr hx
    have h3 : u.elem '#' = false := hhash
    rw [h2] at h3
    exact Bool.noConfusion h3
  have hrfu : removeFragment u = u := removeFragment_id u hnomem
  have hplainm : ∀ ch ∈ lower ((hostnameOf p.netloc).getD []),
      hostPlainChar ch = true := by
    intro ch hch
    exact List.all_eq_true.mp hhplain ch hch
  have hrstr0 : rstripSet ['.'] (lower ((hostnameOf p.netloc).getD [])) =
      lower ((hostnameOf p.netloc).getD []) := by
    refine rstripSet_eq_self _ _ ?_
    intro x hx
    have hxd : x ≠ '.' := by
      intro he
      subst he
      exact hhdot hx
    simp [hxd]
  have hppne : ¬ p.path.isEmpty = true := by
    cases hpp : p.path with
    | nil => rw [hpp] at hp0; simp at hp0
    | cons a t => simp
  have hfs : filterSortQueryPairs (parse_qsl p.query) true = parse_qsl p.query := by
    unfold filterSortQueryPairs
    simp only []
    rw [filterMap_some_id]
    · exact hqsort
    · intro kv hkv
      obtain ⟨hk1, hk2, hk3⟩ := hqkeys kv hkv
      simp only [hk1]
      rw [if_neg hk2]
      rw [if_neg (by
        rintro ⟨-, ht⟩
        rw [hk3] at ht
        exact Bool.noConfusion ht)]
  have hcomp : canonicalize_url u none true =
      .ok (some ⟨urlunsplit (lower p.scheme) (lower ((hostnameOf p.netloc).getD []))
        p.path (urlencode (parse_qsl p.query)) [],
        lower p.scheme, lower ((hostnameOf p.netloc).getD []), p.path,
        urlencode (parse_qsl p.query)⟩) := by
    unfold canonicalize_url
    rw [if_neg hune]
    simp only []
    rw [hstr]
    rw [if_neg hune]
    rw [hrfu]
    rw [if_neg htake2]
    rw [hsplit]
    simp only []
    rw [show (decide (p.scheme.isEmpty = true ∨ p.netloc.isEmpty = true)) = false from
      decide_eq_false (by rintro (hcon | hcon); exacts [hpsne hcon, hpnne hcon])]
    simp only [Bool.false_eq_true, if_false]
    rw [if_neg (not_not_intro hps)]
    rw [hrstr0]
    rw [if_neg (show ¬ (lower ((hostnameOf p.netloc).getD [])).isEmpty = true from
      by simpa [List.isEmpty_iff] using hhne)]
    rw [hport]
    simp only []
    rw [if_neg hppne]
    rw [hnp]
    rw [hfs]
    rfl
  rw [hcomp] at h
  injection h with h
  injection h with h
  subst h
  have hpch : ∀ ch ∈ p.path, urlTextOk ch = true := by
    intro ch hch
    rw [← hnp] at hch
    exact (normalizePath_chars p.path ch hch).1
  have hpqm : ∀ ch ∈ p.path, ch ≠ '?' := by
    intro ch hch
    rw [← hnp] at hch
    exact (normalizePath_chars p.path ch hch).2
  have hqech : ∀ ch ∈ urlencode (parse_qsl p.query), urlTextOk ch = true :=
    fun ch hch => urlencode_all_urlTextOk _ ch hch
  have hrep : urlsplitE (urlunsplit (lower p.scheme)
      (lower ((hostnameOf p.netloc).getD [])) p.path
      (urlencode (parse_qsl p.query)) []) [] =
      .ok ⟨lower p.scheme, lower ((hostnameOf p.netloc).getD []), p.path,
        urlencode (parse_qsl p.query), []⟩ := by
    rw [urlunsplit_form _ _ _ _ (by rcases hps with h' | h' <;> simp [h']) hhne hp0]
    exact urlsplit_reconstruct _ _ _ _ hps hhne hplainm hp0 hpch hpqm hqech
  show url_pattern_key (urlunsplit (lower p.scheme)
      (lower ((hostnameOf p.netloc).getD [])) p.path
      (urlencode (parse_qsl p.query)) []) = url_pattern_key u
  unfold url_pattern_key
  rw [hrep, hsplit]
  simp only []
  have hh2 : lower ((hostnameOf (lower ((hostnameOf p.netloc).getD []))).getD []) =
      lower ((hostnameOf p.netloc).getD []) := by
    rw [hostnameOf_plain _ hhne hplainm]
    simp only [Option.getD_some]
    exact lower_eq_self _
      (fun x hx => (hostPlainChar_props x (hplainm x hx)).2.2.2.2.2.2.2.2)
  rw [hh2]
  rw [hqrt]
  have hhne2 : ¬ (lower ((hostnameOf p.netloc).getD [])).isEmpty = true := by
    simpa [List.isEmpty_iff] using hhne
  rw [if_neg hhne2, if_neg hhne2]

end Recon

namespace Recon

/-- Witness for C3 (amended): `http://Example.org/x/y?q=1` satisfies every
hypothesis and its canonical URL `http://example.org/x/y?q=1` has the same
pattern key. -/
theorem C3_amended_witness :
    canonicalize_url "http://Example.org/x/y?q=1".data none true =
      .ok (some ⟨"http://example.org/x/y?q=1".data, "http".data, "example.org".data,
        "/x/y".data, "q=1".data⟩) ∧
    url_pattern_key "http://example.org/x/y?q=1".data =
      url_pattern_key "http://Example.org/x/y?q=1".data := by
  refine ⟨by decide, ?_⟩
  exact C3_amended "http://Example.org/x/y?q=1".data
    ⟨"http".data, "Example.org".data, "/x/y".data, "q=1".data, []⟩
    ⟨"http://example.org/x/y?q=1".data, "http".data, "example.org".data,
      "/x/y".data, "q=1".data⟩
    (by decide) (by decide) (by decide) (by decide) (by decide) (by decide)
    (by decide) (by decide) (by decide) (by decide) (by decide) (by decide)
    (by decide) (by decide) (by decide) (by decide) (by decide)

end Recon
